import Mathlib

/-!
Verification of the sequential batch-grading controller and its collaborators
(main.py of the essay-grading desktop tool).

The Python source is embedded shallowly:
* parsed JSON replies (`json.loads`) become `JValue`;
* the in-memory result mapping `self.results_store` (an insertion-ordered
  Python dict keyed by file path) becomes an association list `Store`;
* the callback-chained driver `process_next_file` / `on_result` / `on_error`
  becomes a recursive function over the remaining pending items, producing the
  final store, a trace of its observable actions and the terminal message;
* the remote worker and the user's stop button are an environment `Env`
  giving, for each list index, the outcome of its (single) grading request and
  the value of `self.stop_requested` at the moment that request's callback runs;
* `Worker.encode_image`, `display_result`, `export_to_word` and
  `add_item_to_list` are translated directly.
-/

namespace EssayGrader

/-- A parsed JSON value, as produced by `json.loads` on the model reply.
JSON `null` doubles as the Python `None` that `dict.get` returns for a
missing key without a default. Numbers are modelled as integers (the
rubric's scores are integral). -/
inductive JValue where
  | null
  | bool (b : Bool)
  | num (n : Int)
  | str (s : String)
  | arr (elems : List JValue)
  | obj (fields : List (String × JValue))

/-- First-match lookup in a parsed JSON object (Python `dict` lookup;
parsed dicts have distinct keys, so first-match is exact). -/
def lookupField : List (String × JValue) → String → Option JValue
  | [], _ => none
  | (k, v) :: t, key => if k = key then some v else lookupField t key

/-- Python `d.get(key)` (default `None`). -/
def pyGet (d : List (String × JValue)) (key : String) : Option JValue :=
  lookupField d key

/-- Python `d.get(key, dflt)`. -/
def pyGetD (d : List (String × JValue)) (key : String) (dflt : JValue) : JValue :=
  (lookupField d key).getD dflt

/-- A value viewed as a Python dict; `none` models the `AttributeError` /
`TypeError` Python raises when `.get` or `dict` indexing is applied to a
non-dict. -/
def asDict : JValue → Option (List (String × JValue))
  | .obj fields => some fields
  | _ => none

/-- A value that is about to be iterated as a list of correction entries;
`none` models the exception raised on a non-list. -/
def asArr : JValue → Option (List JValue)
  | .arr elems => some elems
  | _ => none

/-- A value passed where python-docx / Qt require a plain string
(`add_paragraph`, `add_run`, `setText`); `none` models the `TypeError`
raised on any other type. -/
def asText : JValue → Option String
  | .str s => some s
  | _ => none

/-- Python truthiness of a parsed JSON value, as used by `if lang_fb:` and
`if corrections:`. -/
def truthy : JValue → Bool
  | .null => false
  | .bool b => b
  | .num n => n != 0
  | .str s => s != ""
  | .arr elems => !elems.isEmpty
  | .obj fields => !fields.isEmpty

/-- Python `str()` of a parsed JSON value, as performed by f-string
interpolation. `None` renders as `"None"`. The container renderings are
abbreviated (Python would print a full repr); the score and text slots the
code interpolates are scalars, for which this function is exact. -/
def pyStr : JValue → String
  | .null => "None"
  | .bool b => if b then "True" else "False"
  | .num n => toString n
  | .str s => s
  | .arr _ => "[…]"
  | .obj _ => "\x7b…\x7d"

/-- `self.results_store`: insertion-ordered mapping from file path to the
parsed grading reply. -/
abbrev Store := List (String × JValue)

/-- The keys of the result store (`file_path in self.results_store`). -/
def storeKeys (s : Store) : List String := s.map Prod.fst

/-- `self.results_store[file_path]` as a total lookup. -/
def storeGet (s : Store) (k : String) : Option JValue := lookupField s k

/-- `self.results_store[file_path] = result`: Python dict assignment keeps an
existing key in place and appends a fresh key at the end. -/
def storeSet : Store → String → JValue → Store
  | [], k, v => [(k, v)]
  | (k0, v0) :: t, k, v =>
      if k0 = k then (k, v) :: t else (k0, v0) :: storeSet t k v

/-- One entry of the pending `QListWidget`: its display text and the file
path stored under `Qt.UserRole`. -/
structure ListItem where
  label : String
  path : String
deriving Repr, DecidableEq

/-- `on_result`: prepend the success mark to the item text unless already
marked. -/
def markSuccess (l : String) : String :=
  if l.startsWith "✅" then l else "✅ " ++ l

/-- `on_error`: prepend the failure mark to the item text unless already
marked. -/
def markError (l : String) : String :=
  if l.startsWith "❌" then l else "❌ " ++ l

/-- `add_item_to_list`: append the item only if no existing entry already
holds the same `Qt.UserRole` file path. -/
def add_item_to_list (items : List ListItem) (displayName filePath : String) :
    List ListItem :=
  if filePath ∈ items.map ListItem.path then items
  else items ++ [⟨displayName, filePath⟩]

/-! ## Display (`display_result`) -/

/-- The dynamic values `display_result` renders: each field is one
interpolation site of its template (tab texts and the feedback HTML), in
template order. Corrections carry their 1-based enumeration index. -/
structure FeedbackView where
  essayType : String
  recognized : String
  revised : String
  total : String
  d1 : String
  d2 : String
  d3 : String
  weakness : String
  suggestion : String
  corrections : List (Nat × String × String × String)
  structureComment : String
  summary : String
deriving Repr, DecidableEq

/-- One entry of the on-screen correction list: `item.get('original')` etc.
have no default, so a missing key renders as `None`. -/
def renderCorrection (c : JValue) : Option (String × String × String) :=
  match asDict c with
  | none => none
  | some cd =>
      some (pyStr (pyGetD cd "original" .null),
            pyStr (pyGetD cd "revised" .null),
            pyStr (pyGetD cd "explanation" .null))

/-- Render each on-screen correction entry in order, failing on the first
entry that is not a dict. -/
def displayCorrEntries : List JValue → Option (List (String × String × String))
  | [] => some []
  | c :: rest =>
      match renderCorrection c with
      | none => none
      | some g =>
          match displayCorrEntries rest with
          | none => none
          | some gs => some (g :: gs)

/-- The on-screen corrections list: `lang_fb.get('sentence_corrections', [])`
followed by `if corrections:` and iteration over the entries. -/
def displayCorrections (langFb : List (String × JValue)) :
    Option (List (String × String × String)) :=
  let corrVal := pyGetD langFb "sentence_corrections" (.arr [])
  if truthy corrVal then
    match asArr corrVal with
    | none => none
    | some corrs => displayCorrEntries corrs
  else some []

/-- `display_result`: extract every value the template interpolates.
A missing `scores` entry defaults to `{}` and each missing score to `0`;
missing feedback texts default as in the source. `none` models the
exceptions Python raises when a present field has the wrong shape. -/
def display_result (data : List (String × JValue)) : Option FeedbackView :=
  match asText (pyGetD data "revised_version" (.str "暂无")) with
  | none => none
  | some revised =>
  match asDict (pyGetD data "scores" (.obj [])) with
  | none => none
  | some scores =>
  match asDict (pyGetD data "feedback_detail" (.obj [])) with
  | none => none
  | some fb =>
  match asDict (pyGetD fb "content" (.obj [])) with
  | none => none
  | some contentFb =>
  match asDict (pyGetD fb "language" (.obj [])) with
  | none => none
  | some langFb =>
  match displayCorrections langFb with
  | none => none
  | some rendered =>
      some { essayType := pyStr (pyGetD data "essay_type" (.str "未分类")),
             recognized := pyStr (pyGetD data "recognized_text" (.str "")),
             revised := revised,
             total := pyStr (pyGetD scores "total" (.num 0)),
             d1 := pyStr (pyGetD scores "dim1_score" (.num 0)),
             d2 := pyStr (pyGetD scores "dim2_score" (.num 0)),
             d3 := pyStr (pyGetD scores "dim3_score" (.num 0)),
             weakness := pyStr (pyGetD contentFb "weakness" (.str "无")),
             suggestion := pyStr (pyGetD contentFb "suggestion" (.str "无")),
             corrections := List.enumFrom 1 rendered,
             structureComment := pyStr (pyGetD fb "structure" (.str "无")),
             summary := pyStr (pyGetD fb "overall_summary" (.str "")) }

/-- Whether `on_result` survives its `self.display_result(result)` call: a
payload that is not a dict, or whose present fields have the wrong shape,
raises there, aborting the slot before the stop check and the advance. -/
def displayOk (result : JValue) : Bool :=
  match asDict result with
  | none => false
  | some d => (display_result d).isSome


/-- The outcome of one `Worker` run for one file: `finished.emit(result, path)`
or `error.emit(str(e), path)`. -/
inductive Outcome where
  | success (result : JValue)
  | failure (message : String)

/-- The environment of one grading run: for the item at each list index, the
outcome its single dispatched request would produce, and the value of
`self.stop_requested` observed when that request's callback runs. -/
structure Env where
  outcome : Nat → Outcome
  stopAt : Nat → Bool

/-- Observable actions of the controller, in order: dispatching a worker for
the item at an index, recording its success (store the result and mark ✅),
recording its failure (mark ❌, store nothing), or skipping an
already-graded item without dispatch. -/
inductive Event where
  | dispatch (i : Nat) (path : String)
  | recSuccess (i : Nat) (path : String)
  | recError (i : Nat) (path : String)
  | skip (i : Nat)
deriving Repr, DecidableEq

/-- The list index an event concerns. -/
def eIdx : Event → Nat
  | .dispatch i _ => i
  | .recSuccess i _ => i
  | .recError i _ => i
  | .skip i => i

/-- Is this event a dispatch of the item at index `i`? -/
def isDispatchAt (i : Nat) : Event → Bool
  | .dispatch j _ => j = i
  | _ => false

/-- Is this event a dispatch of any item? -/
def isDispatch : Event → Bool
  | .dispatch _ _ => true
  | _ => false

/-- The terminal message `finish_grading_session` receives. -/
inductive FinishMsg where
  | completed
  | stoppedAfterSuccess (graded : Nat)
  | stoppedAfterError
deriving Repr, DecidableEq

/-- The literal status message of each terminal state. -/
def finishMessage : FinishMsg → String
  | .completed => "所有文件批改完成"
  | .stoppedAfterSuccess n => "已停止。已批改 " ++ toString n ++ " 份文件。"
  | .stoppedAfterError => "已停止（发生错误后中断）。"

/-- The terminal message indicates the run was stopped rather than
completed. -/
def FinishMsg.isStopped : FinishMsg → Bool
  | .completed => false
  | _ => true

/-- How a run ends: either `finish_grading_session` is reached with a
terminal message, or an exception raised by `display_result` inside
`on_result` kills the callback chain and no terminal state is reached. -/
inductive RunEnd where
  | finished (msg : FinishMsg)
  | crashed
deriving Repr, DecidableEq

/-- The run ended in a Finished state whose reason indicates a stop. -/
def RunEnd.isStoppedFinish : RunEnd → Bool
  | .finished m => m.isStopped
  | .crashed => false

/-- What one grading run leaves behind: the result store, the ordered trace
of observable actions, and how the run ended. -/
structure RunResult where
  store : Store
  trace : List Event
  finished : RunEnd

/-- Prepend one event to a run's trace. -/
def addTrace (e : Event) (r : RunResult) : RunResult :=
  { r with trace := e :: r.trace }

/-- Prepend two events to a run's trace. -/
def addTrace2 (e1 e2 : Event) (r : RunResult) : RunResult :=
  { r with trace := e1 :: e2 :: r.trace }

/-- `process_next_file(index, ...)` together with the `on_result` / `on_error`
callbacks that drive it. The items still to visit (`self.file_list` from
`index` on) are passed as an explicit list, so the bound check
`index >= self.file_list.count()` is the empty-list case. Per item: if its
path is already in the result store it is skipped without dispatch; otherwise
one worker is dispatched and its outcome recorded. On success, `on_result`
stores the result, marks ✅, and then calls `display_result(result)`; an
ill-shaped payload raises there, killing the callback chain with the result
already stored but before the stop check and the advance. Otherwise — and on
failure, which marks ❌ and stores nothing — the stop flag decides between a
stopped Finished state and advancing to the next index. -/
def process_next_file (env : Env) : List ListItem → Store → Nat → RunResult
  | [], store, _ =>
      { store := store, trace := [], finished := .finished .completed }
  | item :: rest, store, index =>
      if item.path ∈ storeKeys store then
        addTrace (.skip index) (process_next_file env rest store (index + 1))
      else
        match env.outcome index with
        | .success result =>
            if displayOk result then
              if env.stopAt index then
                { store := storeSet store item.path result,
                  trace := [.dispatch index item.path, .recSuccess index item.path],
                  finished :=
                    .finished (.stoppedAfterSuccess (storeSet store item.path result).length) }
              else
                addTrace2 (.dispatch index item.path) (.recSuccess index item.path)
                  (process_next_file env rest (storeSet store item.path result) (index + 1))
            else
              { store := storeSet store item.path result,
                trace := [.dispatch index item.path, .recSuccess index item.path],
                finished := .crashed }
        | .failure _ =>
            if env.stopAt index then
              { store := store,
                trace := [.dispatch index item.path, .recError index item.path],
                finished := .finished .stoppedAfterError }
            else
              addTrace2 (.dispatch index item.path) (.recError index item.path)
                (process_next_file env rest store (index + 1))

/-- Result of pressing the run button (`start_grading`). -/
inductive StartResult where
  | noFiles
  | missingConfig
  | started (r : RunResult)

/-- Python `str.strip()`: drop leading and trailing whitespace. -/
def pyStrip (s : String) : String :=
  ⟨((s.data.dropWhile Char.isWhitespace).reverse.dropWhile Char.isWhitespace).reverse⟩

/-- `start_grading`: an empty pending list returns silently; blank (after
strip) credentials show a warning dialog and return; otherwise the stop flag
is reset and the driver starts at index 0. -/
def start_grading (env : Env) (items : List ListItem) (store : Store)
    (apiKey endpointId : String) : StartResult :=
  if items.length = 0 then .noFiles
  else if pyStrip apiKey = "" ∨ pyStrip endpointId = "" then .missingConfig
  else .started (process_next_file env items store 0)

/-- Whether the start attempt surfaced a message dialog to the user:
only the missing-credentials branch calls `QMessageBox.warning`. -/
def startWarnsUser : StartResult → Bool
  | .missingConfig => true
  | _ => false

/-! ## ImageEncoder (`Worker.encode_image`) -/

/-- PIL color modes relevant to the encoder. -/
inductive ImgMode where
  | RGB
  | RGBA
  | P
  | L
  | LA
  | CMYK
deriving Repr, DecidableEq

/-- The printed PIL mode name, as it appears in PIL error messages. -/
def modeName : ImgMode → String
  | .RGB => "RGB"
  | .RGBA => "RGBA"
  | .P => "P"
  | .L => "L"
  | .LA => "LA"
  | .CMYK => "CMYK"

/-- A decoded PIL image: its pixel dimensions and color mode. -/
structure PILImage where
  width : Nat
  height : Nat
  mode : ImgMode
deriving Repr, DecidableEq

/-- Modes PIL can write as JPEG; `img.save(..., format="JPEG")` raises
`OSError("cannot write mode ... as JPEG")` for the others. -/
def jpegSaveable : ImgMode → Bool
  | .RGB => true
  | .L => true
  | .CMYK => true
  | _ => false

/-- Modelled behavior of `img.thumbnail((m, m), LANCZOS)`: downscale in
place, preserving aspect ratio, so that both dimensions are at most `m`
(never upscaling, never below one pixel). -/
def thumbnailDims (w h m : Nat) : Nat × Nat :=
  if w ≤ m ∧ h ≤ m then (w, h)
  else if h ≤ w then (m, max 1 (h * m / w))
  else (max 1 (w * m / h), m)

/-- The encoder's output: a base64 envelope around a JPEG of the stated
dimensions, mode, and save quality, plus whether LANCZOS downsampling was
applied. -/
structure EncodedImage where
  width : Nat
  height : Nat
  mode : ImgMode
  format : String
  quality : Nat
  resampledLanczos : Bool
  base64 : Bool
deriving Repr, DecidableEq

/-- `Worker.encode_image`: decode (`Image.open`; a failure message stands for
the PIL exception), flatten `RGBA` and `P` to `RGB`, thumbnail to at most
2048 px per side only when the larger side exceeds 2048, save as JPEG at
quality 85 and base64-encode. Every exception is re-raised wrapped as
`文件预处理失败: ...`. -/
def encode_image (input : Except String PILImage) : Except String EncodedImage :=
  match input with
  | .error e => .error ("文件预处理失败: " ++ e)
  | .ok img0 =>
      let img1 : PILImage :=
        if img0.mode = .RGBA ∨ img0.mode = .P then { img0 with mode := .RGB } else img0
      let dims : Nat × Nat :=
        if max img1.width img1.height > 2048 then
          thumbnailDims img1.width img1.height 2048
        else (img1.width, img1.height)
      if jpegSaveable img1.mode then
        .ok { width := dims.1, height := dims.2, mode := img1.mode,
              format := "JPEG", quality := 85,
              resampledLanczos := max img1.width img1.height > 2048,
              base64 := true }
      else
        .error ("文件预处理失败: cannot write mode " ++ modeName img1.mode ++ " as JPEG")

/-! ## Export (`export_to_word`) -/

/-- One element added to the Word document, keyed by the python-docx call
that produces it. -/
inductive Block where
  | heading (level : Nat) (text : String)
  | para (text : String)
  | bullet (text : String)
  | table (rows : List (List String))
  | boldPara (text : String)
  | labeledPara (label : String) (text : String)
  | pageBreak
deriving Repr, DecidableEq

/-- Is this block the section break added after each exported document? -/
def isPageBreak : Block → Bool
  | .pageBreak => true
  | _ => false

/-- Is this block a heading? -/
def isHeading : Block → Bool
  | .heading _ _ => true
  | _ => false

/-- Strip the run markers from a list label, as the export loop does with
`item.text().replace("✅ ", "").replace("❌ ", "")`. -/
def stripMarks (label : String) : String :=
  (label.replace "✅ " "").replace "❌ " ""

/-- One correction group in the Word export: three labelled paragraphs and a
blank spacer paragraph. -/
def exportCorrection (idx : Nat) (g : String × String × String) : List Block :=
  [Block.labeledPara (toString idx ++ ". 原句：") g.1,
   Block.labeledPara "   修改：" g.2.1,
   Block.labeledPara "   解析：" g.2.2,
   Block.para ""]

/-- One exported correction entry: `cor.get('original', '')` etc. must be
plain strings for `add_run`. -/
def exportCorrectionEntry (c : JValue) : Option (String × String × String) :=
  match asDict c with
  | none => none
  | some cd =>
  match asText (pyGetD cd "original" (.str "")) with
  | none => none
  | some original =>
  match asText (pyGetD cd "revised" (.str "")) with
  | none => none
  | some revised =>
  match asText (pyGetD cd "explanation" (.str "")) with
  | none => none
  | some explanation => some (original, revised, explanation)

/-- Extract each exported correction entry in order, failing on the first
ill-shaped one. -/
def exportCorrEntries : List JValue → Option (List (String × String × String))
  | [] => some []
  | c :: rest =>
      match exportCorrectionEntry c with
      | none => none
      | some g =>
          match exportCorrEntries rest with
          | none => none
          | some gs => some (g :: gs)

/-- The export loop's language section body: `lang_fb` is used only if
truthy (an empty dict yields no corrections), then
`.get('sentence_corrections', [])` is iterated when itself truthy, each
entry contributing one correction group; otherwise a fixed placeholder
paragraph is emitted. -/
def exportCorrBlocks (langFbVal : JValue) : Option (List Block) :=
  match
    if truthy langFbVal then
      match asDict langFbVal with
      | none => none
      | some langFb => some (pyGetD langFb "sentence_corrections" (.arr []))
    else some (JValue.arr [])
  with
  | none => none
  | some corrVal =>
      if truthy corrVal then
        match asArr corrVal with
        | none => none
        | some corrs =>
            match exportCorrEntries corrs with
            | none => none
            | some groups =>
                some ((List.enumFrom 1 groups).flatMap fun g => exportCorrection g.1 g.2)
      else some [Block.para "暂无具体的逐句修改建议。"]

/-- The body of the export loop for one document that has a stored result:
the fixed sequence of blocks it appends. `none` models the exception raised
when a present field has the wrong shape. -/
def sectionFor (displayName : String) (data : JValue) : Option (List Block) :=
  match asDict data with
  | none => none
  | some d =>
  match asText (pyGetD d "recognized_text" (.str "")) with
  | none => none
  | some recognized =>
  match asDict (pyGetD d "scores" (.obj [])) with
  | none => none
  | some scores =>
  match asDict (pyGetD d "feedback_detail" (.obj [])) with
  | none => none
  | some fb =>
  match asDict (pyGetD fb "content" (.obj [])) with
  | none => none
  | some contentFb =>
  match exportCorrBlocks (pyGetD fb "language" (.obj [])) with
  | none => none
  | some corrBlocks =>
  match asText (pyGetD d "revised_version" (.str "暂无")) with
  | none => none
  | some revised =>
      some ([Block.heading 1 ("文件：" ++ displayName),
             Block.heading 2 "OCR 识别原文",
             Block.para recognized,
             Block.heading 2 "评分详情",
             Block.table
               [["维度", "内容要点", "语言表达", "结构衔接"],
                ["得分", pyStr (pyGetD scores "dim1_score" (.num 0)),
                 pyStr (pyGetD scores "dim2_score" (.num 0)),
                 pyStr (pyGetD scores "dim3_score" (.num 0))]],
             Block.boldPara ("总分：" ++ pyStr (pyGetD scores "total" .null) ++ "/15"),
             Block.heading 3 "一、内容要点",
             Block.bullet ("不足：" ++ pyStr (pyGetD contentFb "weakness" (.str "无"))),
             Block.bullet ("建议：" ++ pyStr (pyGetD contentFb "suggestion" (.str "无"))),
             Block.heading 3 "二、语言表达与逐句修改"] ++
            corrBlocks ++
            [Block.heading 3 "三、结构与整体总结",
             Block.para ("结构评价：" ++ pyStr (pyGetD fb "structure" (.str "无"))),
             Block.para ("整体总结：" ++ pyStr (pyGetD fb "overall_summary" (.str "无"))),
             Block.heading 2 "满分范文参考",
             Block.para revised,
             Block.pageBreak])

/-- The export loop over the pending list: documents without a stored result
are skipped; the rest contribute their section in list order. -/
def buildBlocks : List ListItem → Store → Option (List Block)
  | [], _ => some []
  | it :: rest, store =>
      match storeGet store it.path with
      | none => buildBlocks rest store
      | some data =>
          match sectionFor (stripMarks it.label) data with
          | none => none
          | some sec =>
              match buildBlocks rest store with
              | none => none
              | some tail => some (sec ++ tail)

/-- The outcome of one export action. -/
inductive ExportOutcome where
  | noData
  | cancelled
  | saved (path : String) (doc : List Block)
  | saveFailed (cause : String)
  | raised

/-- The critical dialog text shown when saving fails. -/
def exportErrorText (cause : String) : String :=
  "保存失败：" ++ cause ++ "\n请检查文件是否被占用。"

/-- `export_to_word`: warn and return when the store is empty; return when
the save dialog is cancelled; build the document; only `doc.save` is guarded,
its failure surfacing one critical dialog with the underlying cause. -/
def export_to_word (items : List ListItem) (store : Store)
    (savePath : Option String) (save : String → Except String Unit) :
    ExportOutcome :=
  if store.length = 0 then .noData
  else
    match savePath with
    | none => .cancelled
    | some p =>
        match buildBlocks items store with
        | none => .raised
        | some blocks =>
            match save p with
            | .ok _ => .saved p blocks
            | .error cause => .saveFailed cause

/-- Shape of a run trace: starting at some index, each index in turn is
either skipped, or dispatched and immediately recorded (success or failure);
a stop truncates the remainder. -/
inductive Chunks : Nat → List Event → Prop where
  | nil (i : Nat) : Chunks i []
  | skip (i : Nat) (t : List Event) : Chunks (i + 1) t → Chunks i (.skip i :: t)
  | okS (i : Nat) (p : String) (t : List Event) :
      Chunks (i + 1) t → Chunks i (.dispatch i p :: .recSuccess i p :: t)
  | okE (i : Nat) (p : String) (t : List Event) :
      Chunks (i + 1) t → Chunks i (.dispatch i p :: .recError i p :: t)

/-! ## Store lemmas -/

theorem storeKeys_append (a b : Store) :
    storeKeys (a ++ b) = storeKeys a ++ storeKeys b := by
  simp [storeKeys]

theorem mem_storeKeys_storeSet (s : Store) (k k0 : String) (v : JValue)
    (h : k ∈ storeKeys s) : k ∈ storeKeys (storeSet s k0 v) := by
  induction s with
  | nil => simp [storeKeys] at h
  | cons hd t ih =>
      obtain ⟨k1, v1⟩ := hd
      simp only [storeKeys, List.map_cons, List.mem_cons] at h
      by_cases hk : k1 = k0
      · subst hk
        rcases h with h | h
        · simp [storeSet, storeKeys, h]
        · simp [storeSet, storeKeys]
          right
          simpa [storeKeys] using h
      · rcases h with h | h
        · simp [storeSet, hk, storeKeys, h]
        · simp only [storeSet, if_neg hk, storeKeys, List.map_cons, List.mem_cons]
          right
          simpa [storeKeys] using ih (by simpa [storeKeys] using h)

theorem self_mem_storeKeys_storeSet (s : Store) (k : String) (v : JValue) :
    k ∈ storeKeys (storeSet s k v) := by
  induction s with
  | nil => simp [storeSet, storeKeys]
  | cons hd t ih =>
      obtain ⟨k1, v1⟩ := hd
      by_cases hk : k1 = k
      · simp [storeSet, hk, storeKeys]
      · simp only [storeSet, if_neg hk, storeKeys, List.map_cons, List.mem_cons]
        right
        simpa [storeKeys] using ih

theorem storeSet_fresh (s : Store) (k : String) (v : JValue)
    (h : k ∉ storeKeys s) : storeSet s k v = s ++ [(k, v)] := by
  induction s with
  | nil => simp [storeSet]
  | cons hd t ih =>
      obtain ⟨k1, v1⟩ := hd
      simp only [storeKeys, List.map_cons, List.mem_cons, not_or] at h
      have hne : k1 ≠ k := fun hh => h.1 hh.symm
      simp only [storeSet, if_neg hne, List.cons_append, List.cons.injEq, true_and]
      exact ih (by simpa [storeKeys] using h.2)

/-! ## Trace-shape lemmas -/

theorem chunks_run (env : Env) (pending : List ListItem) :
    ∀ store index, Chunks index (process_next_file env pending store index).trace := by
  induction pending with
  | nil => intro store index; exact .nil index
  | cons item rest ih =>
      intro store index
      by_cases hmem : item.path ∈ storeKeys store
      · simpa [process_next_file, hmem, addTrace] using
          Chunks.skip index _ (ih store (index + 1))
      · cases ho : env.outcome index with
        | success result =>
            by_cases hdok : displayOk result = true
            · by_cases hs : env.stopAt index = true
              · simpa [process_next_file, hmem, ho, hdok, hs] using
                  Chunks.okS index item.path [] (.nil _)
              · simpa [process_next_file, hmem, ho, hdok, hs, addTrace2] using
                  Chunks.okS index item.path _
                    (ih (storeSet store item.path result) (index + 1))
            · simpa [process_next_file, hmem, ho, hdok] using
                Chunks.okS index item.path [] (.nil _)
        | failure msg =>
            by_cases hs : env.stopAt index = true
            · simpa [process_next_file, hmem, ho, hs] using
                Chunks.okE index item.path [] (.nil _)
            · simpa [process_next_file, hmem, ho, hs, addTrace2] using
                Chunks.okE index item.path _ (ih store (index + 1))

theorem chunks_le {n : Nat} {tr : List Event} (h : Chunks n tr) :
    ∀ e ∈ tr, n ≤ eIdx e := by
  induction h with
  | nil => simp
  | skip i t _ ih =>
      intro e he
      rcases List.mem_cons.mp he with rfl | he
      · simp [eIdx]
      · exact Nat.le_of_succ_le (ih e he)
  | okS i p t _ ih =>
      intro e he
      rcases List.mem_cons.mp he with rfl | he
      · simp [eIdx]
      rcases List.mem_cons.mp he with rfl | he
      · simp [eIdx]
      · exact Nat.le_of_succ_le (ih e he)
  | okE i p t _ ih =>
      intro e he
      rcases List.mem_cons.mp he with rfl | he
      · simp [eIdx]
      rcases List.mem_cons.mp he with rfl | he
      · simp [eIdx]
      · exact Nat.le_of_succ_le (ih e he)

theorem chunks_split {n : Nat} {tr : List Event} (h : Chunks n tr) :
    ∀ i p, Event.dispatch i p ∈ tr →
      ∃ l₁ rc l₂, tr = l₁ ++ Event.dispatch i p :: rc :: l₂ ∧
        (rc = Event.recSuccess i p ∨ rc = Event.recError i p) ∧
        (∀ e ∈ l₁, eIdx e < i) ∧ (∀ e ∈ l₂, i < eIdx e) := by
  induction h with
  | nil => simp
  | skip j t ht ih =>
      intro i p hmem
      rcases List.mem_cons.mp hmem with habs | hmem
      · exact absurd habs (by simp)
      · obtain ⟨l₁, rc, l₂, heq, hrc, h₁, h₂⟩ := ih i p hmem
        have hij : j + 1 ≤ i := chunks_le ht _ hmem
        refine ⟨.skip j :: l₁, rc, l₂, by simp [heq], hrc, ?_, h₂⟩
        intro e he
        rcases List.mem_cons.mp he with rfl | he
        · simpa [eIdx] using hij
        · exact h₁ e he
  | okS j q t ht ih =>
      intro i p hmem
      rcases List.mem_cons.mp hmem with hhead | hmem
      · refine ⟨[], .recSuccess j q, t, by rw [← hhead]; simp, ?_, by simp,
          fun e he => by injection hhead with a b; rw [a]; exact chunks_le ht e he⟩
        left
        injection hhead with a b
        rw [a, b]
      rcases List.mem_cons.mp hmem with habs | hmem
      · exact absurd habs (by simp)
      · obtain ⟨l₁, rc, l₂, heq, hrc, h₁, h₂⟩ := ih i p hmem
        have hij : j + 1 ≤ i := chunks_le ht _ hmem
        refine ⟨.dispatch j q :: .recSuccess j q :: l₁, rc, l₂, by simp [heq], hrc, ?_, h₂⟩
        intro e he
        rcases List.mem_cons.mp he with rfl | he
        · simpa [eIdx] using hij
        rcases List.mem_cons.mp he with rfl | he
        · simpa [eIdx] using hij
        · exact h₁ e he
  | okE j q t ht ih =>
      intro i p hmem
      rcases List.mem_cons.mp hmem with hhead | hmem
      · refine ⟨[], .recError j q, t, by rw [← hhead]; simp, ?_, by simp,
          fun e he => by injection hhead with a b; rw [a]; exact chunks_le ht e he⟩
        right
        injection hhead with a b
        rw [a, b]
      rcases List.mem_cons.mp hmem with habs | hmem
      · exact absurd habs (by simp)
      · obtain ⟨l₁, rc, l₂, heq, hrc, h₁, h₂⟩ := ih i p hmem
        have hij : j + 1 ≤ i := chunks_le ht _ hmem
        refine ⟨.dispatch j q :: .recError j q :: l₁, rc, l₂, by simp [heq], hrc, ?_, h₂⟩
        intro e he
        rcases List.mem_cons.mp he with rfl | he
        · simpa [eIdx] using hij
        rcases List.mem_cons.mp he with rfl | he
        · simpa [eIdx] using hij
        · exact h₁ e he

theorem chunks_countP {n : Nat} {tr : List Event} (h : Chunks n tr) (i : Nat) :
    tr.countP (isDispatchAt i) ≤ 1 := by
  induction h with
  | nil => simp
  | skip j t ht ih =>
      simpa [List.countP_cons, isDispatchAt] using ih
  | okS j q t ht ih =>
      by_cases hji : j = i
      · subst hji
        have hz : t.countP (isDispatchAt j) = 0 := by
          rw [List.countP_eq_zero]
          intro e he
          have := chunks_le ht e he
          cases e <;> simp_all [isDispatchAt, eIdx] <;> omega
        simp [List.countP_cons, isDispatchAt, hz]
      · simpa [List.countP_cons, isDispatchAt, hji] using ih
  | okE j q t ht ih =>
      by_cases hji : j = i
      · subst hji
        have hz : t.countP (isDispatchAt j) = 0 := by
          rw [List.countP_eq_zero]
          intro e he
          have := chunks_le ht e he
          cases e <;> simp_all [isDispatchAt, eIdx] <;> omega
        simp [List.countP_cons, isDispatchAt, hz]
      · simpa [List.countP_cons, isDispatchAt, hji] using ih

/-! ## Run lemmas -/

theorem run_dispatch_src (env : Env) (pending : List ListItem) :
    ∀ store index i p,
      Event.dispatch i p ∈ (process_next_file env pending store index).trace →
      ∃ k it, pending[k]? = some it ∧ i = index + k ∧ it.path = p := by
  induction pending with
  | nil => intro store index i p h; simp [process_next_file] at h
  | cons item rest ih =>
      intro store index i p h
      by_cases hmem : item.path ∈ storeKeys store
      · simp only [process_next_file, if_pos hmem, addTrace, List.mem_cons] at h
        rcases h with habs | h
        · simp at habs
        · obtain ⟨k, it, hk, hi, hp⟩ := ih store (index + 1) i p h
          exact ⟨k + 1, it, by simpa using hk, by omega, hp⟩
      · cases ho : env.outcome index with
        | success result =>
            by_cases hdok : displayOk result = true
            · by_cases hs : env.stopAt index = true
              · simp only [process_next_file, if_neg hmem, ho, if_pos hdok, if_pos hs,
                  List.mem_cons] at h
                rcases h with hhead | h
                · obtain ⟨rfl, rfl⟩ : i = index ∧ p = item.path := by simpa using hhead
                  exact ⟨0, item, by simp, by omega, rfl⟩
                rcases h with habs | habs
                · simp at habs
                · simp at habs
              · simp only [process_next_file, if_neg hmem, ho, if_pos hdok, if_neg hs,
                  addTrace2, List.mem_cons] at h
                rcases h with hhead | h
                · obtain ⟨rfl, rfl⟩ : i = index ∧ p = item.path := by simpa using hhead
                  exact ⟨0, item, by simp, by omega, rfl⟩
                rcases h with habs | h
                · simp at habs
                · obtain ⟨k, it, hk, hi, hp⟩ :=
                    ih (storeSet store item.path result) (index + 1) i p h
                  exact ⟨k + 1, it, by simpa using hk, by omega, hp⟩
            · simp only [process_next_file, if_neg hmem, ho, if_neg hdok,
                List.mem_cons] at h
              rcases h with hhead | h
              · obtain ⟨rfl, rfl⟩ : i = index ∧ p = item.path := by simpa using hhead
                exact ⟨0, item, by simp, by omega, rfl⟩
              rcases h with habs | habs
              · simp at habs
              · simp at habs
        | failure msg =>
            by_cases hs : env.stopAt index = true
            · simp only [process_next_file, if_neg hmem, ho, if_pos hs,
                List.mem_cons] at h
              rcases h with hhead | h
              · obtain ⟨rfl, rfl⟩ : i = index ∧ p = item.path := by simpa using hhead
                exact ⟨0, item, by simp, by omega, rfl⟩
              rcases h with habs | habs
              · simp at habs
              · simp at habs
            · simp only [process_next_file, if_neg hmem, ho, if_neg hs, addTrace2,
                List.mem_cons] at h
              rcases h with hhead | h
              · obtain ⟨rfl, rfl⟩ : i = index ∧ p = item.path := by simpa using hhead
                exact ⟨0, item, by simp, by omega, rfl⟩
              rcases h with habs | h
              · simp at habs
              · obtain ⟨k, it, hk, hi, hp⟩ := ih store (index + 1) i p h
                exact ⟨k + 1, it, by simpa using hk, by omega, hp⟩

theorem run_skip_stored (env : Env) (pending : List ListItem) :
    ∀ store index k it, pending[k]? = some it → it.path ∈ storeKeys store →
      ∀ p, Event.dispatch (index + k) p ∉
        (process_next_file env pending store index).trace := by
  induction pending with
  | nil => intro store index k it hk; simp at hk
  | cons item rest ih =>
      intro store index k it hk hin p hd
      by_cases hmem : item.path ∈ storeKeys store
      · simp only [process_next_file, if_pos hmem, addTrace, List.mem_cons] at hd
        rcases hd with habs | hd
        · simp at habs
        · cases k with
          | zero =>
              have := chunks_le (chunks_run env rest store (index + 1)) _ hd
              simp only [eIdx] at this
              omega
          | succ k =>
              simp only [List.getElem?_cons_succ] at hk
              have harr : index + (k + 1) = (index + 1) + k := by omega
              rw [harr] at hd
              exact ih store (index + 1) k it hk hin p hd
      · cases k with
        | zero =>
            obtain rfl : item = it := by simpa using hk
            exact hmem hin
        | succ k =>
            simp only [List.getElem?_cons_succ] at hk
            cases ho : env.outcome index with
            | success result =>
                by_cases hdok : displayOk result = true
                · by_cases hs : env.stopAt index = true
                  · simp only [process_next_file, if_neg hmem, ho, if_pos hdok,
                      if_pos hs, List.mem_cons] at hd
                    rcases hd with habs | hd
                    · injection habs with a b
                      omega
                    rcases hd with habs | habs
                    · simp at habs
                    · simp at habs
                  · simp only [process_next_file, if_neg hmem, ho, if_pos hdok,
                      if_neg hs, addTrace2, List.mem_cons] at hd
                    rcases hd with habs | hd
                    · injection habs with a b
                      omega
                    rcases hd with habs | hd
                    · simp at habs
                    · have harr : index + (k + 1) = (index + 1) + k := by omega
                      rw [harr] at hd
                      exact ih (storeSet store item.path result) (index + 1) k it hk
                        (mem_storeKeys_storeSet store it.path item.path result hin) p hd
                · simp only [process_next_file, if_neg hmem, ho, if_neg hdok,
                    List.mem_cons] at hd
                  rcases hd with habs | hd
                  · injection habs with a b
                    omega
                  rcases hd with habs | habs
                  · simp at habs
                  · simp at habs
            | failure msg =>
                by_cases hs : env.stopAt index = true
                · simp only [process_next_file, if_neg hmem, ho, if_pos hs,
                    List.mem_cons] at hd
                  rcases hd with habs | hd
                  · injection habs with a b
                    omega
                  rcases hd with habs | habs
                  · simp at habs
                  · simp at habs
                · simp only [process_next_file, if_neg hmem, ho, if_neg hs, addTrace2,
                    List.mem_cons] at hd
                  rcases hd with habs | hd
                  · injection habs with a b
                    omega
                  rcases hd with habs | hd
                  · simp at habs
                  · have harr : index + (k + 1) = (index + 1) + k := by omega
                    rw [harr] at hd
                    exact ih store (index + 1) k it hk hin p hd

theorem run_no_stop (env : Env) (pending : List ListItem)
    (hstop : ∀ j, env.stopAt j = false)
    (hdisp : ∀ j res, env.outcome j = .success res → displayOk res = true) :
    ∀ store index,
      (process_next_file env pending store index).finished = .finished .completed := by
  induction pending with
  | nil => intro store index; simp [process_next_file]
  | cons item rest ih =>
      intro store index
      by_cases hmem : item.path ∈ storeKeys store
      · simp [process_next_file, hmem, addTrace, ih]
      · cases ho : env.outcome index with
        | success result =>
            simp [process_next_file, hmem, ho, hdisp index result ho, hstop index,
              addTrace2, ih]
        | failure msg =>
            simp [process_next_file, hmem, ho, hstop index, addTrace2, ih]

theorem run_all_stored (env : Env) (pending : List ListItem) :
    ∀ store index, (∀ it ∈ pending, it.path ∈ storeKeys store) →
      (∀ i p, Event.dispatch i p ∉ (process_next_file env pending store index).trace) ∧
      (process_next_file env pending store index).store = store ∧
      (process_next_file env pending store index).finished = .finished .completed := by
  induction pending with
  | nil =>
      intro store index _
      exact ⟨by simp [process_next_file], by simp [process_next_file],
        by simp [process_next_file]⟩
  | cons item rest ih =>
      intro store index hall
      have hmem : item.path ∈ storeKeys store := hall item (by simp)
      obtain ⟨h1, h2, h3⟩ :=
        ih store (index + 1) (fun it hit => hall it (by simp [hit]))
      refine ⟨?_, by simpa [process_next_file, hmem, addTrace] using h2,
        by simpa [process_next_file, hmem, addTrace] using h3⟩
      intro i p hd
      simp only [process_next_file, if_pos hmem, addTrace, List.mem_cons] at hd
      rcases hd with habs | hd
      · simp at habs
      · exact h1 i p hd

theorem run_store_append (env : Env) (pending : List ListItem) :
    ∀ store index, ∃ new,
      (process_next_file env pending store index).store = store ++ new ∧
      (new.map Prod.fst).Sublist (pending.map ListItem.path) := by
  induction pending with
  | nil => intro store index; exact ⟨[], by simp [process_next_file], by simp⟩
  | cons item rest ih =>
      intro store index
      by_cases hmem : item.path ∈ storeKeys store
      · obtain ⟨new, h1, h2⟩ := ih store (index + 1)
        exact ⟨new, by simpa [process_next_file, hmem, addTrace] using h1,
          h2.cons _⟩
      · cases ho : env.outcome index with
        | success result =>
            by_cases hdok : displayOk result = true
            · by_cases hs : env.stopAt index = true
              · refine ⟨[(item.path, result)], ?_, ?_⟩
                · simp [process_next_file, hmem, ho, hdok, hs,
                    storeSet_fresh store item.path result hmem]
                · simpa using List.Sublist.cons₂ item.path (List.nil_sublist _)
              · obtain ⟨new, h1, h2⟩ := ih (storeSet store item.path result) (index + 1)
                rw [storeSet_fresh store item.path result hmem] at h1
                refine ⟨(item.path, result) :: new, ?_, ?_⟩
                · simpa [process_next_file, hmem, ho, hdok, hs, addTrace2,
                    storeSet_fresh store item.path result hmem,
                    List.append_assoc] using h1
                · simpa using List.Sublist.cons₂ item.path h2
            · refine ⟨[(item.path, result)], ?_, ?_⟩
              · simp [process_next_file, hmem, ho, hdok,
                  storeSet_fresh store item.path result hmem]
              · simpa using List.Sublist.cons₂ item.path (List.nil_sublist _)
        | failure msg =>
            by_cases hs : env.stopAt index = true
            · exact ⟨[], by simp [process_next_file, hmem, ho, hs], by simp⟩
            · obtain ⟨new, h1, h2⟩ := ih store (index + 1)
              exact ⟨new,
                by simpa [process_next_file, hmem, ho, hs, addTrace2] using h1,
                h2.cons _⟩

theorem run_stop_bound (env : Env) (pending : List ListItem) :
    ∀ store index i p,
      Event.dispatch i p ∈ (process_next_file env pending store index).trace →
      env.stopAt i = true →
      ∀ e ∈ (process_next_file env pending store index).trace, eIdx e ≤ i := by
  induction pending with
  | nil => intro store index i p h; simp [process_next_file] at h
  | cons item rest ih =>
      intro store index i p h hstop e he
      by_cases hmem : item.path ∈ storeKeys store
      · simp only [process_next_file, if_pos hmem, addTrace, List.mem_cons] at h he
        rcases h with habs | h
        · simp at habs
        rcases he with rfl | he
        · have hge := chunks_le (chunks_run env rest store (index + 1)) _ h
          simp only [eIdx] at hge ⊢
          omega
        · exact ih store (index + 1) i p h hstop e he
      · cases ho : env.outcome index with
        | success result =>
            by_cases hdok : displayOk result = true
            · by_cases hs : env.stopAt index = true
              · simp only [process_next_file, if_neg hmem, ho, if_pos hdok, if_pos hs,
                  List.mem_cons] at h he
                rcases h with hhead | h
                · obtain ⟨rfl, rfl⟩ : i = index ∧ p = item.path := by simpa using hhead
                  rcases he with rfl | he
                  · simp [eIdx]
                  rcases he with rfl | he
                  · simp [eIdx]
                  · simp at he
                rcases h with habs | habs
                · simp at habs
                · simp at habs
              · simp only [process_next_file, if_neg hmem, ho, if_pos hdok, if_neg hs,
                  addTrace2, List.mem_cons] at h he
                rcases h with hhead | h
                · obtain ⟨rfl, rfl⟩ : i = index ∧ p = item.path := by simpa using hhead
                  rw [hstop] at hs
                  simp at hs
                rcases h with habs | h
                · simp at habs
                · have hge := chunks_le
                    (chunks_run env rest (storeSet store item.path result) (index + 1)) _ h
                  simp only [eIdx] at hge
                  rcases he with rfl | he
                  · simp only [eIdx]
                    omega
                  rcases he with rfl | he
                  · simp only [eIdx]
                    omega
                  · exact ih (storeSet store item.path result) (index + 1) i p h hstop e he
            · simp only [process_next_file, if_neg hmem, ho, if_neg hdok,
                List.mem_cons] at h he
              rcases h with hhead | h
              · obtain ⟨rfl, rfl⟩ : i = index ∧ p = item.path := by simpa using hhead
                rcases he with rfl | he
                · simp [eIdx]
                rcases he with rfl | he
                · simp [eIdx]
                · simp at he
              rcases h with habs | habs
              · simp at habs
              · simp at habs
        | failure msg =>
            by_cases hs : env.stopAt index = true
            · simp only [process_next_file, if_neg hmem, ho, if_pos hs,
                List.mem_cons] at h he
              rcases h with hhead | h
              · obtain ⟨rfl, rfl⟩ : i = index ∧ p = item.path := by simpa using hhead
                rcases he with rfl | he
                · simp [eIdx]
                rcases he with rfl | he
                · simp [eIdx]
                · simp at he
              rcases h with habs | habs
              · simp at habs
              · simp at habs
            · simp only [process_next_file, if_neg hmem, ho, if_neg hs, addTrace2,
                List.mem_cons] at h he
              rcases h with hhead | h
              · obtain ⟨rfl, rfl⟩ : i = index ∧ p = item.path := by simpa using hhead
                rw [hstop] at hs
                simp at hs
              rcases h with habs | h
              · simp at habs
              · have hge := chunks_le (chunks_run env rest store (index + 1)) _ h
                simp only [eIdx] at hge
                rcases he with rfl | he
                · simp only [eIdx]
                  omega
                rcases he with rfl | he
                · simp only [eIdx]
                  omega
                · exact ih store (index + 1) i p h hstop e he

theorem run_stop_finished (env : Env) (pending : List ListItem) :
    ∀ store index i p,
      Event.dispatch i p ∈ (process_next_file env pending store index).trace →
      env.stopAt i = true →
      (∀ res, env.outcome i = .success res → displayOk res = true) →
      RunEnd.isStoppedFinish (process_next_file env pending store index).finished = true := by
  induction pending with
  | nil => intro store index i p h; simp [process_next_file] at h
  | cons item rest ih =>
      intro store index i p h hstop hdispi
      by_cases hmem : item.path ∈ storeKeys store
      · simp only [process_next_file, if_pos hmem, addTrace, List.mem_cons] at h ⊢
        rcases h with habs | h
        · simp at habs
        · exact ih store (index + 1) i p h hstop hdispi
      · cases ho : env.outcome index with
        | success result =>
            by_cases hdok : displayOk result = true
            · by_cases hs : env.stopAt index = true
              · simp [process_next_file, hmem, ho, hdok, hs, RunEnd.isStoppedFinish,
                  FinishMsg.isStopped]
              · simp only [process_next_file, if_neg hmem, ho, if_pos hdok, if_neg hs,
                  addTrace2, List.mem_cons] at h ⊢
                rcases h with hhead | h
                · obtain ⟨rfl, rfl⟩ : i = index ∧ p = item.path := by simpa using hhead
                  rw [hstop] at hs
                  simp at hs
                rcases h with habs | h
                · simp at habs
                · exact ih (storeSet store item.path result) (index + 1) i p h hstop hdispi
            · simp only [process_next_file, if_neg hmem, ho, if_neg hdok,
                List.mem_cons] at h
              rcases h with hhead | h
              · obtain ⟨rfl, rfl⟩ : i = index ∧ p = item.path := by simpa using hhead
                exact absurd (hdispi result ho) hdok
              rcases h with habs | habs
              · simp at habs
              · simp at habs
        | failure msg =>
            by_cases hs : env.stopAt index = true
            · simp [process_next_file, hmem, ho, hs, RunEnd.isStoppedFinish,
                FinishMsg.isStopped]
            · simp only [process_next_file, if_neg hmem, ho, if_neg hs, addTrace2,
                List.mem_cons] at h ⊢
              rcases h with hhead | h
              · obtain ⟨rfl, rfl⟩ : i = index ∧ p = item.path := by simpa using hhead
                rw [hstop] at hs
                simp at hs
              rcases h with habs | h
              · simp at habs
              · exact ih store (index + 1) i p h hstop hdispi

theorem run_record (env : Env) (pending : List ListItem) :
    ∀ store index i p,
      Event.dispatch i p ∈ (process_next_file env pending store index).trace →
      (∀ res, env.outcome i = .success res →
        Event.recSuccess i p ∈ (process_next_file env pending store index).trace ∧
        p ∈ storeKeys (process_next_file env pending store index).store) ∧
      (∀ err, env.outcome i = .failure err →
        Event.recError i p ∈ (process_next_file env pending store index).trace) := by
  induction pending with
  | nil => intro store index i p h; simp [process_next_file] at h
  | cons item rest ih =>
      intro store index i p h
      by_cases hmem : item.path ∈ storeKeys store
      · simp only [process_next_file, if_pos hmem, addTrace, List.mem_cons] at h ⊢
        rcases h with habs | h
        · simp at habs
        · obtain ⟨hS, hF⟩ := ih store (index + 1) i p h
          exact ⟨fun res hres => ⟨Or.inr (hS res hres).1, (hS res hres).2⟩,
            fun err herr => Or.inr (hF err herr)⟩
      · cases ho : env.outcome index with
        | success result =>
            by_cases hdok : displayOk result = true
            · by_cases hs : env.stopAt index = true
              · simp only [process_next_file, if_neg hmem, ho, if_pos hdok, if_pos hs,
                  List.mem_cons] at h ⊢
                rcases h with hhead | h
                · obtain ⟨rfl, rfl⟩ : i = index ∧ p = item.path := by simpa using hhead
                  refine ⟨fun res hres => ⟨by simp, ?_⟩, fun err herr => ?_⟩
                  · exact self_mem_storeKeys_storeSet store item.path result
                  · rw [ho] at herr
                    simp at herr
                rcases h with habs | habs
                · simp at habs
                · simp at habs
              · simp only [process_next_file, if_neg hmem, ho, if_pos hdok, if_neg hs,
                  addTrace2, List.mem_cons] at h ⊢
                rcases h with hhead | h
                · obtain ⟨rfl, rfl⟩ : i = index ∧ p = item.path := by simpa using hhead
                  refine ⟨fun res hres => ⟨by simp, ?_⟩, fun err herr => ?_⟩
                  · obtain ⟨new, hnew, _⟩ := run_store_append env rest
                      (storeSet store item.path result) (i + 1)
                    rw [hnew, storeKeys_append]
                    exact List.mem_append.mpr
                      (Or.inl (self_mem_storeKeys_storeSet store item.path result))
                  · rw [ho] at herr
                    simp at herr
                rcases h with habs | h
                · simp at habs
                · obtain ⟨hS, hF⟩ := ih (storeSet store item.path result) (index + 1) i p h
                  exact ⟨fun res hres => ⟨Or.inr (Or.inr (hS res hres).1), (hS res hres).2⟩,
                    fun err herr => Or.inr (Or.inr (hF err herr))⟩
            · simp only [process_next_file, if_neg hmem, ho, if_neg hdok,
                List.mem_cons] at h ⊢
              rcases h with hhead | h
              · obtain ⟨rfl, rfl⟩ : i = index ∧ p = item.path := by simpa using hhead
                refine ⟨fun res hres => ⟨by simp, ?_⟩, fun err herr => ?_⟩
                · exact self_mem_storeKeys_storeSet store item.path result
                · rw [ho] at herr
                  simp at herr
              rcases h with habs | habs
              · simp at habs
              · simp at habs
        | failure msg =>
            by_cases hs : env.stopAt index = true
            · simp only [process_next_file, if_neg hmem, ho, if_pos hs,
                List.mem_cons] at h ⊢
              rcases h with hhead | h
              · obtain ⟨rfl, rfl⟩ : i = index ∧ p = item.path := by simpa using hhead
                refine ⟨fun res hres => ?_, fun err herr => by simp⟩
                rw [ho] at hres
                simp at hres
              rcases h with habs | habs
              · simp at habs
              · simp at habs
            · simp only [process_next_file, if_neg hmem, ho, if_neg hs, addTrace2,
                List.mem_cons] at h ⊢
              rcases h with hhead | h
              · obtain ⟨rfl, rfl⟩ : i = index ∧ p = item.path := by simpa using hhead
                refine ⟨fun res hres => ?_, fun err herr => by simp⟩
                rw [ho] at hres
                simp at hres
              rcases h with habs | h
              · simp at habs
              · obtain ⟨hS, hF⟩ := ih store (index + 1) i p h
                exact ⟨fun res hres => ⟨Or.inr (Or.inr (hS res hres).1), (hS res hres).2⟩,
                  fun err herr => Or.inr (Or.inr (hF err herr))⟩

theorem run_fresh_not_stored (env : Env) (pending : List ListItem) :
    ∀ store index p, p ∉ storeKeys store →
      (∀ k it, pending[k]? = some it → it.path = p →
        ∀ res, env.outcome (index + k) ≠ .success res) →
      p ∉ storeKeys (process_next_file env pending store index).store := by
  induction pending with
  | nil => intro store index p hp _; simpa [process_next_file] using hp
  | cons item rest ih =>
      intro store index p hp hno
      have hshift : ∀ k it, rest[k]? = some it → it.path = p →
          ∀ res, env.outcome ((index + 1) + k) ≠ .success res := by
        intro k it hk hpath res
        have harr : (index + 1) + k = index + (k + 1) := by omega
        rw [harr]
        exact hno (k + 1) it (by simpa using hk) hpath res
      by_cases hmem : item.path ∈ storeKeys store
      · have := ih store (index + 1) p hp hshift
        simpa [process_next_file, hmem, addTrace] using this
      · cases ho : env.outcome index with
        | success result =>
            have hne : item.path ≠ p := by
              intro hcontra
              exact hno 0 item (by simp) hcontra result (by simpa using ho)
            have hp2 : p ∉ storeKeys (storeSet store item.path result) := by
              rw [storeSet_fresh store item.path result hmem, storeKeys_append]
              intro hcontra
              rcases List.mem_append.mp hcontra with hin | hin
              · exact hp hin
              · simp [storeKeys] at hin
                exact hne hin.symm
            by_cases hdok : displayOk result = true
            · by_cases hs : env.stopAt index = true
              · simpa [process_next_file, hmem, ho, hdok, hs] using hp2
              · have := ih (storeSet store item.path result) (index + 1) p hp2 hshift
                simpa [process_next_file, hmem, ho, hdok, hs, addTrace2] using this
            · simpa [process_next_file, hmem, ho, hdok] using hp2
        | failure msg =>
            by_cases hs : env.stopAt index = true
            · simpa [process_next_file, hmem, ho, hs] using hp
            · have := ih store (index + 1) p hp hshift
              simpa [process_next_file, hmem, ho, hs, addTrace2] using this

theorem run_attempt (env : Env) (pending : List ListItem)
    (hstop : ∀ j, env.stopAt j = false)
    (hdisp : ∀ j res, env.outcome j = .success res → displayOk res = true) :
    ∀ store index k it, pending[k]? = some it → it.path ∉ storeKeys store →
      (∀ j jt, j < k → pending[j]? = some jt → jt.path ≠ it.path) →
      Event.dispatch (index + k) it.path ∈
        (process_next_file env pending store index).trace := by
  induction pending with
  | nil => intro store index k it hk; simp at hk
  | cons item rest ih =>
      intro store index k it hk hfresh hdistinct
      cases k with
      | zero =>
          obtain rfl : item = it := by simpa using hk
          cases ho : env.outcome index with
          | success result =>
              simp [process_next_file, hfresh, ho, hdisp index result ho, hstop index,
                addTrace2]
          | failure msg =>
              simp [process_next_file, hfresh, ho, hstop index, addTrace2]
      | succ k =>
          simp only [List.getElem?_cons_succ] at hk
          have harr : index + (k + 1) = (index + 1) + k := by omega
          rw [harr]
          have hshiftd : ∀ j jt, j < k → rest[j]? = some jt → jt.path ≠ it.path := by
            intro j jt hj hjt
            exact hdistinct (j + 1) jt (by omega) (by simpa using hjt)
          by_cases hmem : item.path ∈ storeKeys store
          · have := ih store (index + 1) k it hk hfresh hshiftd
            simp only [process_next_file, if_pos hmem, addTrace, List.mem_cons]
            exact Or.inr this
          · cases ho : env.outcome index with
            | success result =>
                have hne : item.path ≠ it.path :=
                  hdistinct 0 item (by omega) (by simp)
                have hfresh2 : it.path ∉ storeKeys (storeSet store item.path result) := by
                  rw [storeSet_fresh store item.path result hmem, storeKeys_append]
                  intro hcontra
                  rcases List.mem_append.mp hcontra with hin | hin
                  · exact hfresh hin
                  · simp [storeKeys] at hin
                    exact hne hin.symm
                have := ih (storeSet store item.path result) (index + 1) k it hk
                  hfresh2 hshiftd
                simp only [process_next_file, if_neg hmem, ho,
                  if_pos (hdisp index result ho), hstop index,
                  Bool.false_eq_true, if_false, addTrace2, List.mem_cons]
                exact Or.inr (Or.inr this)
            | failure msg =>
                have := ih store (index + 1) k it hk hfresh hshiftd
                simp only [process_next_file, if_neg hmem, ho, hstop index,
                  Bool.false_eq_true, if_false, addTrace2, List.mem_cons]
                exact Or.inr (Or.inr this)

theorem run_head (env : Env) (item : ListItem) (rest : List ListItem)
    (store : Store) (index : Nat) :
    Event.skip index ∈ (process_next_file env (item :: rest) store index).trace ∨
    ∃ q, Event.dispatch index q ∈
      (process_next_file env (item :: rest) store index).trace := by
  by_cases hmem : item.path ∈ storeKeys store
  · left
    simp [process_next_file, hmem, addTrace]
  · right
    refine ⟨item.path, ?_⟩
    cases ho : env.outcome index with
    | success result =>
        by_cases hdok : displayOk result = true
        · by_cases hs : env.stopAt index = true <;>
            simp [process_next_file, hmem, ho, hdok, hs, addTrace2]
        · simp [process_next_file, hmem, ho, hdok]
    | failure msg =>
        by_cases hs : env.stopAt index = true <;>
          simp [process_next_file, hmem, ho, hs, addTrace2]

theorem run_next (env : Env) (pending : List ListItem) :
    ∀ store index i p,
      Event.dispatch i p ∈ (process_next_file env pending store index).trace →
      env.stopAt i = false →
      (∀ res, env.outcome i = .success res → displayOk res = true) →
      i + 1 < index + pending.length →
      (Event.skip (i + 1) ∈ (process_next_file env pending store index).trace ∨
       ∃ q, Event.dispatch (i + 1) q ∈
         (process_next_file env pending store index).trace) := by
  induction pending with
  | nil => intro store index i p h; simp [process_next_file] at h
  | cons item rest ih =>
      intro store index i p h hns hdi hlt
      by_cases hmem : item.path ∈ storeKeys store
      · simp only [process_next_file, if_pos hmem, addTrace, List.mem_cons] at h ⊢
        rcases h with habs | h
        · simp at habs
        · have hlt2 : i + 1 < (index + 1) + rest.length := by
            simp only [List.length_cons] at hlt
            omega
          rcases ih store (index + 1) i p h hns hdi hlt2 with hsk | ⟨q, hd⟩
          · exact Or.inl (Or.inr hsk)
          · exact Or.inr ⟨q, Or.inr hd⟩
      · cases ho : env.outcome index with
        | success result =>
            by_cases hdok : displayOk result = true
            · by_cases hs : env.stopAt index = true
              · simp only [process_next_file, if_neg hmem, ho, if_pos hdok, if_pos hs,
                  List.mem_cons] at h
                rcases h with hhead | h
                · obtain ⟨rfl, rfl⟩ : i = index ∧ p = item.path := by simpa using hhead
                  rw [hns] at hs
                  simp at hs
                rcases h with habs | habs
                · simp at habs
                · simp at habs
              · simp only [process_next_file, if_neg hmem, ho, if_pos hdok, if_neg hs,
                  addTrace2, List.mem_cons] at h ⊢
                rcases h with hhead | h
                · obtain ⟨rfl, rfl⟩ : i = index ∧ p = item.path := by simpa using hhead
                  cases rest with
                  | nil =>
                      simp only [List.length_cons, List.length_nil] at hlt
                      omega
                  | cons r0 rest2 =>
                      rcases run_head env r0 rest2 (storeSet store item.path result)
                        (i + 1) with hsk | ⟨q, hd⟩
                      · exact Or.inl (Or.inr (Or.inr hsk))
                      · exact Or.inr ⟨q, Or.inr (Or.inr hd)⟩
                rcases h with habs | h
                · simp at habs
                · have hlt2 : i + 1 < (index + 1) + rest.length := by
                    simp only [List.length_cons] at hlt
                    omega
                  rcases ih (storeSet store item.path result) (index + 1) i p h hns hdi
                    hlt2 with hsk | ⟨q, hd⟩
                  · exact Or.inl (Or.inr (Or.inr hsk))
                  · exact Or.inr ⟨q, Or.inr (Or.inr hd)⟩
            · simp only [process_next_file, if_neg hmem, ho, if_neg hdok,
                List.mem_cons] at h
              rcases h with hhead | h
              · obtain ⟨rfl, rfl⟩ : i = index ∧ p = item.path := by simpa using hhead
                exact absurd (hdi result ho) hdok
              rcases h with habs | habs
              · simp at habs
              · simp at habs
        | failure msg =>
            by_cases hs : env.stopAt index = true
            · simp only [process_next_file, if_neg hmem, ho, if_pos hs,
                List.mem_cons] at h
              rcases h with hhead | h
              · obtain ⟨rfl, rfl⟩ : i = index ∧ p = item.path := by simpa using hhead
                rw [hns] at hs
                simp at hs
              rcases h with habs | habs
              · simp at habs
              · simp at habs
            · simp only [process_next_file, if_neg hmem, ho, if_neg hs, addTrace2,
                List.mem_cons] at h ⊢
              rcases h with hhead | h
              · obtain ⟨rfl, rfl⟩ : i = index ∧ p = item.path := by simpa using hhead
                cases rest with
                | nil =>
                    simp only [List.length_cons, List.length_nil] at hlt
                    omega
                | cons r0 rest2 =>
                    rcases run_head env r0 rest2 store (i + 1) with hsk | ⟨q, hd⟩
                    · exact Or.inl (Or.inr (Or.inr hsk))
                    · exact Or.inr ⟨q, Or.inr (Or.inr hd)⟩
              rcases h with habs | h
              · simp at habs
              · have hlt2 : i + 1 < (index + 1) + rest.length := by
                  simp only [List.length_cons] at hlt
                  omega
                rcases ih store (index + 1) i p h hns hdi hlt2 with hsk | ⟨q, hd⟩
                · exact Or.inl (Or.inr (Or.inr hsk))
                · exact Or.inr ⟨q, Or.inr (Or.inr hd)⟩

theorem run_crash_src (env : Env) (pending : List ListItem) :
    ∀ store index,
      (process_next_file env pending store index).finished = .crashed →
      ∃ j q res, Event.dispatch j q ∈ (process_next_file env pending store index).trace ∧
        env.outcome j = .success res ∧ displayOk res = false := by
  induction pending with
  | nil => intro store index h; simp [process_next_file] at h
  | cons item rest ih =>
      intro store index h
      by_cases hmem : item.path ∈ storeKeys store
      · simp only [process_next_file, if_pos hmem, addTrace] at h ⊢
        obtain ⟨j, q, res, hmemd, ho2, hdok2⟩ := ih store (index + 1) h
        exact ⟨j, q, res, List.mem_cons_of_mem _ hmemd, ho2, hdok2⟩
      · cases ho : env.outcome index with
        | success result =>
            by_cases hdok : displayOk result = true
            · by_cases hs : env.stopAt index = true
              · simp [process_next_file, hmem, ho, hdok, hs] at h
              · simp only [process_next_file, if_neg hmem, ho, if_pos hdok, if_neg hs,
                  addTrace2] at h ⊢
                obtain ⟨j, q, res, hmemd, ho2, hdok2⟩ :=
                  ih (storeSet store item.path result) (index + 1) h
                exact ⟨j, q, res,
                  List.mem_cons_of_mem _ (List.mem_cons_of_mem _ hmemd), ho2, hdok2⟩
            · refine ⟨index, item.path, result, ?_, ho, ?_⟩
              · simp [process_next_file, hmem, ho, hdok]
              · simpa using hdok
        | failure msg =>
            by_cases hs : env.stopAt index = true
            · simp [process_next_file, hmem, ho, hs] at h
            · simp only [process_next_file, if_neg hmem, ho, if_neg hs, addTrace2] at h ⊢
              obtain ⟨j, q, res, hmemd, ho2, hdok2⟩ := ih store (index + 1) h
              exact ⟨j, q, res,
                List.mem_cons_of_mem _ (List.mem_cons_of_mem _ hmemd), ho2, hdok2⟩

/-! ## Marker, list, and rendering helper lemmas -/

theorem markError_ne_markSuccess (l : String) (h1 : ¬ l.startsWith "✅")
    (h2 : ¬ l.startsWith "❌") : markError l ≠ markSuccess l := by
  simp only [markError, markSuccess, if_neg h1, if_neg h2]
  intro hexact
  have hd : ("❌ " ++ l).data = ("✅ " ++ l).data := congrArg String.data hexact
  rw [String.data_append, String.data_append] at hd
  have hlit : ("❌ " : String).data = ("✅ " : String).data :=
    List.append_cancel_right hd
  exact absurd hlit (by decide)

theorem nodup_path_inj (items : List ListItem)
    (hnd : (items.map ListItem.path).Nodup) {i j : Nat} {a b : ListItem}
    (hi : items[i]? = some a) (hj : items[j]? = some b) (hab : a.path = b.path) :
    i = j := by
  have hi2 : (items.map ListItem.path)[i]? = some a.path := by
    rw [List.getElem?_map, hi]
    rfl
  have hj2 : (items.map ListItem.path)[j]? = some b.path := by
    rw [List.getElem?_map, hj]
    rfl
  have hlen : i < items.length := by
    by_contra hc
    rw [List.getElem?_eq_none (by omega : items.length ≤ i)] at hi
    exact Option.noConfusion hi
  exact List.getElem?_inj (by simpa using hlen) hnd (by rw [hi2, hj2, hab])

theorem add_nodup_preserved (items : List ListItem) (n p : String)
    (h : (items.map ListItem.path).Nodup) :
    ((add_item_to_list items n p).map ListItem.path).Nodup := by
  unfold add_item_to_list
  split
  · exact h
  · next hnot =>
      rw [List.map_append, List.map_cons, List.map_nil, List.nodup_append]
      refine ⟨h, List.nodup_singleton _, fun a ha hb => ?_⟩
      rw [List.mem_singleton] at hb
      subst hb
      exact hnot ha

theorem exportCorrection_flat_counts (gs : List (String × String × String)) :
    ∀ n, ((List.enumFrom n gs).flatMap fun g =>
        exportCorrection g.1 g.2).countP isPageBreak = 0 ∧
      ((List.enumFrom n gs).flatMap fun g =>
        exportCorrection g.1 g.2).countP isHeading = 0 := by
  induction gs with
  | nil => simp
  | cons g rest ih =>
      intro n
      have h2 := ih (n + 1)
      simp only [List.enumFrom, List.flatMap_cons]
      constructor
      · rw [List.countP_append, h2.1]
        rfl
      · rw [List.countP_append, h2.2]
        rfl

theorem exportCorrBlocks_counts (v : JValue) (corrBlocks : List Block)
    (h : exportCorrBlocks v = some corrBlocks) :
    corrBlocks.countP isPageBreak = 0 ∧ corrBlocks.countP isHeading = 0 := by
  unfold exportCorrBlocks at h
  cases htr : truthy v with
  | false =>
      have harr0 : truthy (JValue.arr []) = false := rfl
      simp [htr, harr0] at h
      subst h
      constructor <;> rfl
  | true =>
      simp only [htr, if_true] at h
      cases hld : asDict v with
      | none => simp [hld] at h
      | some langFb =>
          simp only [hld] at h
          cases htc : truthy (pyGetD langFb "sentence_corrections" (JValue.arr [])) with
          | false =>
              simp [htc] at h
              subst h
              constructor <;> rfl
          | true =>
              simp only [htc, if_true] at h
              cases harr : asArr (pyGetD langFb "sentence_corrections" (JValue.arr [])) with
              | none => simp [harr] at h
              | some corrs =>
                  simp only [harr] at h
                  cases hmp : exportCorrEntries corrs with
                  | none => simp [hmp] at h
                  | some groups =>
                      simp only [hmp, Option.some.injEq] at h
                      subst h
                      exact exportCorrection_flat_counts groups 1

theorem sectionFor_shape (name : String) (data : JValue) (sec : List Block)
    (h : sectionFor name data = some sec) :
    ∃ d scores corr recognized stc sm w sg rev,
      asDict data = some d ∧
      asDict (pyGetD d "scores" (.obj [])) = some scores ∧
      corr.countP isPageBreak = 0 ∧ corr.countP isHeading = 0 ∧
      sec = [Block.heading 1 ("文件：" ++ name),
             Block.heading 2 "OCR 识别原文",
             Block.para recognized,
             Block.heading 2 "评分详情",
             Block.table
               [["维度", "内容要点", "语言表达", "结构衔接"],
                ["得分", pyStr (pyGetD scores "dim1_score" (.num 0)),
                 pyStr (pyGetD scores "dim2_score" (.num 0)),
                 pyStr (pyGetD scores "dim3_score" (.num 0))]],
             Block.boldPara ("总分：" ++ pyStr (pyGetD scores "total" .null) ++ "/15"),
             Block.heading 3 "一、内容要点",
             Block.bullet w,
             Block.bullet sg,
             Block.heading 3 "二、语言表达与逐句修改"] ++ corr ++
            [Block.heading 3 "三、结构与整体总结",
             Block.para stc,
             Block.para sm,
             Block.heading 2 "满分范文参考",
             Block.para rev,
             Block.pageBreak] := by
  unfold sectionFor at h
  cases hd : asDict data with
  | none => simp [hd] at h
  | some d =>
  simp only [hd] at h
  cases hrec : asText (pyGetD d "recognized_text" (JValue.str "")) with
  | none => simp [hrec] at h
  | some recognized =>
  simp only [hrec] at h
  cases hsc : asDict (pyGetD d "scores" (JValue.obj [])) with
  | none => simp [hsc] at h
  | some scores =>
  simp only [hsc] at h
  cases hfb : asDict (pyGetD d "feedback_detail" (JValue.obj [])) with
  | none => simp [hfb] at h
  | some fb =>
  simp only [hfb] at h
  cases hcf : asDict (pyGetD fb "content" (JValue.obj [])) with
  | none => simp [hcf] at h
  | some contentFb =>
  simp only [hcf] at h
  cases hcb : exportCorrBlocks (pyGetD fb "language" (JValue.obj [])) with
  | none => simp [hcb] at h
  | some corrBlocks =>
  simp only [hcb] at h
  cases hrev : asText (pyGetD d "revised_version" (JValue.str "暂无")) with
  | none => simp [hrev] at h
  | some rev =>
  simp only [hrev, Option.some.injEq] at h
  subst h
  obtain ⟨hc1, hc2⟩ := exportCorrBlocks_counts _ _ hcb
  exact ⟨d, scores, corrBlocks, recognized, _, _, _, _, rev, rfl, hsc, hc1, hc2, rfl⟩

theorem buildBlocks_eq (store : Store) :
    ∀ items blocks, buildBlocks items store = some blocks →
      blocks = (items.filter (fun it => (storeGet store it.path).isSome)).flatMap
        (fun it =>
          (sectionFor (stripMarks it.label) ((storeGet store it.path).getD .null)).getD []) := by
  intro items
  induction items with
  | nil => intro blocks h; simpa [buildBlocks] using h.symm
  | cons it rest ih =>
      intro blocks h
      unfold buildBlocks at h
      split at h
      next hsg =>
          rw [List.filter_cons_of_neg (by simp [hsg])]
          exact ih blocks h
      next data hsg =>
          split at h
          · exact Option.noConfusion h
          next sec hsec =>
          split at h
          · exact Option.noConfusion h
          next tail htail =>
          injection h with h
          subst h
          rw [List.filter_cons_of_pos (by simp [hsg])]
          rw [List.flatMap_cons, hsg]
          simp only [Option.getD_some, hsec]
          rw [ih tail htail]

theorem display_result_scores (data : List (String × JValue)) (v : FeedbackView)
    (h : display_result data = some v) :
    ∃ s, asDict (pyGetD data "scores" (.obj [])) = some s ∧
      v.total = pyStr (pyGetD s "total" (.num 0)) ∧
      v.d1 = pyStr (pyGetD s "dim1_score" (.num 0)) ∧
      v.d2 = pyStr (pyGetD s "dim2_score" (.num 0)) ∧
      v.d3 = pyStr (pyGetD s "dim3_score" (.num 0)) := by
  unfold display_result at h
  cases hrev : asText (pyGetD data "revised_version" (JValue.str "暂无")) with
  | none => simp [hrev] at h
  | some revised =>
  simp only [hrev] at h
  cases hsc : asDict (pyGetD data "scores" (JValue.obj [])) with
  | none => simp [hsc] at h
  | some scores =>
  simp only [hsc] at h
  cases hfb : asDict (pyGetD data "feedback_detail" (JValue.obj [])) with
  | none => simp [hfb] at h
  | some fb =>
  simp only [hfb] at h
  cases hcf : asDict (pyGetD fb "content" (JValue.obj [])) with
  | none => simp [hcf] at h
  | some contentFb =>
  simp only [hcf] at h
  cases hlf : asDict (pyGetD fb "language" (JValue.obj [])) with
  | none => simp [hlf] at h
  | some langFb =>
  simp only [hlf] at h
  cases hdc : displayCorrections langFb with
  | none => simp [hdc] at h
  | some rendered =>
  simp only [hdc, Option.some.injEq] at h
  subst h
  exact ⟨scores, rfl, rfl, rfl, rfl, rfl⟩


/-! ## Concrete fixtures used by witnesses -/

/-- Three pending items with distinct file paths. -/
def itemsFx : List ListItem := [⟨"a.jpg", "pa"⟩, ⟨"b.jpg", "pb"⟩, ⟨"c.jpg", "pc"⟩]

/-- Item 1 fails to grade, the others succeed; no stop is requested. -/
def envFx : Env :=
  ⟨fun i => if i = 1 then .failure "invalid json" else .success (JValue.obj []),
   fun _ => false⟩

/-- Every item would succeed, and a stop is requested during every
in-flight request. -/
def envStopFx : Env := ⟨fun _ => .success (JValue.obj []), fun _ => true⟩

/-- Every request succeeds with an ill-shaped (non-dict) payload, and a stop
is requested during every in-flight request. -/
def envCrashStopFx : Env := ⟨fun _ => .success (JValue.num 5), fun _ => true⟩

/-- A store in which every fixture item already has a result. -/
def storeAllFx : Store := [("pa", JValue.null), ("pb", JValue.null), ("pc", JValue.null)]

/-! ## Claims -/

/-- Claim C1: within one run started at index 0, a Document whose path is
already in the result mapping is skipped without a new dispatch; each
Document (list position) receives at most one grading attempt per run; and
a Document without a stored result — in particular one that failed in an
earlier run — is dispatched again on a fresh run over duplicate-free paths,
provided no stop is requested and every successful payload renders without
raising in `display_result` (an ill-shaped success halts the run early):
a failed Document is re-attempted exactly by starting a new run. -/
theorem claim1_skip_and_single_attempt (env : Env) (items : List ListItem)
    (store : Store) (i : Nat) :
    (∀ it, items[i]? = some it → it.path ∈ storeKeys store →
      ∀ p, Event.dispatch i p ∉ (process_next_file env items store 0).trace) ∧
    ((process_next_file env items store 0).trace.countP (isDispatchAt i) ≤ 1) ∧
    (∀ it, items[i]? = some it → it.path ∉ storeKeys store →
      (∀ j, env.stopAt j = false) →
      (∀ j res, env.outcome j = .success res → displayOk res = true) →
      (items.map ListItem.path).Nodup →
      Event.dispatch i it.path ∈ (process_next_file env items store 0).trace) := by
  refine ⟨?_, chunks_countP (chunks_run env items store 0) i, ?_⟩
  · intro it hi hin p hd
    exact run_skip_stored env items store 0 i it hi hin p (by simpa using hd)
  · intro it hi hfresh hstop hdisp hnd
    have hdist : ∀ j jt, j < i → items[j]? = some jt → jt.path ≠ it.path := by
      intro j jt hj hjt heq
      have := nodup_path_inj items hnd hjt hi heq
      omega
    have := run_attempt env items hstop hdisp store 0 i it hi hfresh hdist
    simpa using this

/-- Claim C1 witness: in the fixture run, the fresh item at index 2 is
dispatched. -/
theorem claim1_witness :
    Event.dispatch 2 "pc" ∈ (process_next_file envFx itemsFx [] 0).trace := by
  refine (claim1_skip_and_single_attempt envFx itemsFx [] 2).2.2 ⟨"c.jpg", "pc"⟩ rfl
    (by simp [storeKeys]) (fun _ => rfl) ?_ (by decide)
  intro j res hres
  by_cases hj : j = 1
  · simp [envFx, hj] at hres
  · simp [envFx, hj] at hres
    subst hres
    rfl

/-- Claim C3 counterexample: with non-blank credentials but an empty pending
list, the start fails (nothing dispatched, no run started) yet no warning
dialog is shown — the failure is not reported to the user, unlike the
missing-credential failure. -/
theorem claim3_counterexample :
    start_grading envFx [] [] "key" "ep" = StartResult.noFiles ∧
    startWarnsUser (start_grading envFx [] [] "key" "ep") = false :=
  ⟨rfl, rfl⟩

/-- Claim C3 (amended): a run starts — and hence index 0 can be dispatched —
only when the pending list is non-empty and both stripped credentials are
non-blank; otherwise nothing is dispatched and the controller state is
untouched, but only the missing-credential failure is reported to the user
with a warning dialog; an empty pending list makes start return silently. -/
theorem claim3_start_guard (env : Env) (items : List ListItem) (store : Store)
    (apiKey endpointId : String) :
    (∀ r, start_grading env items store apiKey endpointId = .started r →
      items ≠ [] ∧ pyStrip apiKey ≠ "" ∧ pyStrip endpointId ≠ "") ∧
    (items = [] →
      start_grading env items store apiKey endpointId = .noFiles ∧
      startWarnsUser (start_grading env items store apiKey endpointId) = false) ∧
    (items ≠ [] → (pyStrip apiKey = "" ∨ pyStrip endpointId = "") →
      start_grading env items store apiKey endpointId = .missingConfig ∧
      startWarnsUser (start_grading env items store apiKey endpointId) = true) := by
  unfold start_grading
  refine ⟨?_, ?_, ?_⟩
  · intro r hr
    by_cases h0 : items.length = 0
    · simp [h0] at hr
    · by_cases hc : pyStrip apiKey = "" ∨ pyStrip endpointId = ""
      · simp [h0, hc] at hr
      · push_neg at hc
        refine ⟨?_, hc.1, hc.2⟩
        intro he
        subst he
        simp at h0
  · intro h0
    subst h0
    simp [startWarnsUser]
  · intro hne hc
    have h0 : ¬ items.length = 0 := by simpa using hne
    simp [h0, hc, startWarnsUser]

/-- Claim C3 witness: blank credentials on a non-empty list block the start
with a user-visible warning. -/
theorem claim3_witness :
    start_grading envFx itemsFx [] "" "ep" = StartResult.missingConfig ∧
    startWarnsUser (start_grading envFx itemsFx [] "" "ep") = true :=
  (claim3_start_guard envFx itemsFx [] "" "ep").2.2 (by decide) (Or.inl (by decide))

/-- Claim C4 counterexample: a stop is requested while item 0's request is
in flight and the request succeeds with an ill-shaped payload; the result is
stored and recorded, but `on_result` raises in `display_result` before the
stop check, so the run crashes and never reaches a Finished state whose
reason indicates it was stopped. -/
theorem claim4_counterexample :
    Event.dispatch 0 "pa" ∈ (process_next_file envCrashStopFx itemsFx [] 0).trace ∧
    envCrashStopFx.stopAt 0 = true ∧
    (process_next_file envCrashStopFx itemsFx [] 0).finished = RunEnd.crashed ∧
    RunEnd.isStoppedFinish (process_next_file envCrashStopFx itemsFx [] 0).finished
      = false :=
  ⟨by decide, rfl, rfl, rfl⟩

/-- Claim C4 (amended): if the stop flag is set while item i's request is in
flight, item i still runs to completion and its outcome is recorded (result
stored and success recorded on success, error recorded on failure) and no
item after i is dispatched; the run reaches a Finished state whose reason
indicates the stop provided a successful payload renders without raising in
`display_result` — an ill-shaped success payload kills the callback chain
between storing the result and the stop check, so the run halts with no
Finished state. -/
theorem claim4_stop_semantics (env : Env) (items : List ListItem) (store : Store)
    (i : Nat) (p : String)
    (hd : Event.dispatch i p ∈ (process_next_file env items store 0).trace)
    (hs : env.stopAt i = true) :
    (∀ res, env.outcome i = .success res →
      Event.recSuccess i p ∈ (process_next_file env items store 0).trace ∧
      p ∈ storeKeys (process_next_file env items store 0).store) ∧
    (∀ err, env.outcome i = .failure err →
      Event.recError i p ∈ (process_next_file env items store 0).trace) ∧
    (∀ j q, Event.dispatch j q ∈ (process_next_file env items store 0).trace → j ≤ i) ∧
    ((∀ res, env.outcome i = .success res → displayOk res = true) →
      RunEnd.isStoppedFinish (process_next_file env items store 0).finished = true) := by
  refine ⟨(run_record env items store 0 i p hd).1,
    (run_record env items store 0 i p hd).2, ?_,
    fun hdisp => run_stop_finished env items store 0 i p hd hs hdisp⟩
  intro j q hj
  simpa [eIdx] using run_stop_bound env items store 0 i p hd hs _ hj

/-- Claim C4 witness: with a stop requested during item 0's request and a
well-shaped payload, its success is still recorded and the fixture run ends
in a stopped Finished state. -/
theorem claim4_witness :
    Event.recSuccess 0 "pa" ∈ (process_next_file envStopFx itemsFx [] 0).trace ∧
    RunEnd.isStoppedFinish (process_next_file envStopFx itemsFx [] 0).finished = true := by
  have h := claim4_stop_semantics envStopFx itemsFx [] 0 "pa" (by decide) rfl
  refine ⟨(h.1 (JValue.obj []) rfl).1, h.2.2.2 ?_⟩
  intro res hres
  simp [envStopFx] at hres
  subst hres
  rfl

/-- Claim C5: every dispatch is immediately followed by that item's outcome
record (so at most one request is ever in flight and earlier events all
concern smaller indices); for i < j, item i's outcome is recorded before
item j's dispatch; and new results are appended to the store in strict
Document-list order. -/
theorem claim5_sequential_order (env : Env) (items : List ListItem) (store : Store) :
    (∀ i p, Event.dispatch i p ∈ (process_next_file env items store 0).trace →
      ∃ l₁ rc l₂,
        (process_next_file env items store 0).trace =
          l₁ ++ Event.dispatch i p :: rc :: l₂ ∧
        (rc = Event.recSuccess i p ∨ rc = Event.recError i p) ∧
        (∀ e ∈ l₁, eIdx e < i) ∧ (∀ e ∈ l₂, i < eIdx e)) ∧
    (∀ i j p q, i < j →
      Event.dispatch i p ∈ (process_next_file env items store 0).trace →
      Event.dispatch j q ∈ (process_next_file env items store 0).trace →
      ∃ l₁ l₂,
        (process_next_file env items store 0).trace =
          l₁ ++ Event.dispatch j q :: l₂ ∧
        (Event.recSuccess i p ∈ l₁ ∨ Event.recError i p ∈ l₁)) ∧
    (∃ new, (process_next_file env items store 0).store = store ++ new ∧
      (new.map Prod.fst).Sublist (items.map ListItem.path)) := by
  refine ⟨fun i p hd => chunks_split (chunks_run env items store 0) i p hd, ?_,
    run_store_append env items store 0⟩
  intro i j p q hij hdi hdj
  obtain ⟨m₁, rc, m₂, heq, hrc, hm₁, hm₂⟩ :=
    chunks_split (chunks_run env items store 0) i p hdi
  have hdj2 : Event.dispatch j q ∈ m₂ := by
    rw [heq] at hdj
    rcases List.mem_append.mp hdj with hin | hin
    · have := hm₁ _ hin
      simp only [eIdx] at this
      omega
    rcases List.mem_cons.mp hin with habs | hin
    · injection habs with a b
      omega
    rcases List.mem_cons.mp hin with habs | hin
    · rcases hrc with rfl | rfl
      · simp at habs
      · simp at habs
    · exact hin
  obtain ⟨a, b, hab⟩ := List.append_of_mem hdj2
  refine ⟨m₁ ++ Event.dispatch i p :: rc :: a, b, ?_, ?_⟩
  · rw [heq, hab]
    simp
  · rcases hrc with rfl | rfl
    · left
      simp
    · right
      simp

/-- Claim C5 witness: in the fixture run the dispatch of item 1 is
immediately followed by its outcome record. -/
theorem claim5_witness :
    ∃ l₁ rc l₂, (process_next_file envFx itemsFx [] 0).trace =
      l₁ ++ Event.dispatch 1 "pb" :: rc :: l₂ ∧
      (rc = Event.recSuccess 1 "pb" ∨ rc = Event.recError 1 "pb") ∧
      (∀ e ∈ l₁, eIdx e < 1) ∧ (∀ e ∈ l₂, 1 < eIdx e) :=
  (claim5_sequential_order envFx itemsFx []).1 1 "pb" (by decide)

/-- Claim C6: when item i's grading fails, the error marker is recorded (a
marker distinct from the success marker), no result is stored for the item,
and — with no stop requested — the run continues with index i+1; a per-item
failure never aborts the run: with no stop and every success payload
rendering cleanly the run completes, and a crashed run can only originate
from an ill-shaped success payload, never from a failure. -/
theorem claim6_failure_recovery (env : Env) (items : List ListItem) (store : Store)
    (i : Nat) (p : String) (err : String)
    (hd : Event.dispatch i p ∈ (process_next_file env items store 0).trace)
    (hf : env.outcome i = .failure err) :
    (Event.recError i p ∈ (process_next_file env items store 0).trace ∧
      ∀ l, ¬ l.startsWith "✅" → ¬ l.startsWith "❌" → markError l ≠ markSuccess l) ∧
    (p ∉ storeKeys store → (items.map ListItem.path).Nodup →
      p ∉ storeKeys (process_next_file env items store 0).store) ∧
    (env.stopAt i = false → i + 1 < items.length →
      (Event.skip (i + 1) ∈ (process_next_file env items store 0).trace ∨
       ∃ q, Event.dispatch (i + 1) q ∈ (process_next_file env items store 0).trace)) ∧
    ((∀ j, env.stopAt j = false) →
      (∀ j res, env.outcome j = .success res → displayOk res = true) →
      (process_next_file env items store 0).finished = .finished .completed) ∧
    ((process_next_file env items store 0).finished = RunEnd.crashed →
      ∃ j q res, Event.dispatch j q ∈ (process_next_file env items store 0).trace ∧
        env.outcome j = .success res ∧ displayOk res = false) := by
  refine ⟨⟨(run_record env items store 0 i p hd).2 err hf, markError_ne_markSuccess⟩,
    ?_, ?_, fun hns hdisp => run_no_stop env items hns hdisp store 0,
    run_crash_src env items store 0⟩
  · intro hp hnd
    obtain ⟨k, it, hk, hik, hpath⟩ := run_dispatch_src env items store 0 i p hd
    have hki : items[i]? = some it := by
      rw [hik]
      simpa using hk
    apply run_fresh_not_stored env items store 0 p hp
    intro k2 it2 hk2 hp2 res hres
    have hkk : k2 = i := nodup_path_inj items hnd hk2 hki (by rw [hp2, hpath])
    rw [hkk] at hres
    simp only [Nat.zero_add] at hres
    rw [hf] at hres
    exact Outcome.noConfusion hres
  · intro hns hlt
    have hdi : ∀ res, env.outcome i = .success res → displayOk res = true := by
      intro res hres
      rw [hf] at hres
      exact Outcome.noConfusion hres
    exact run_next env items store 0 i p hd hns hdi (by simpa using hlt)

/-- Claim C6 witness: the fixture failure at index 1 is recorded, stores
nothing, and the run still completes. -/
theorem claim6_witness :
    Event.recError 1 "pb" ∈ (process_next_file envFx itemsFx [] 0).trace ∧
    "pb" ∉ storeKeys (process_next_file envFx itemsFx [] 0).store := by
  have h := claim6_failure_recovery envFx itemsFx [] 1 "pb" "invalid json"
    (by decide) rfl
  exact ⟨h.1.1, h.2.1 (by simp [storeKeys]) (by decide)⟩

/-- Claim C7: re-running over a list in which every Document already has a
stored result issues no grading request, leaves the result mapping
unchanged, and finishes immediately in the completed state. -/
theorem claim7_rerun_idempotent (env : Env) (items : List ListItem) (store : Store)
    (hall : ∀ it ∈ items, it.path ∈ storeKeys store) :
    (∀ i p, Event.dispatch i p ∉ (process_next_file env items store 0).trace) ∧
    (process_next_file env items store 0).store = store ∧
    (process_next_file env items store 0).finished = .finished .completed :=
  run_all_stored env items store 0 hall

/-- Claim C7 witness: re-running the fixture list over a store that already
holds all three results completes with the store unchanged. -/
theorem claim7_witness :
    (process_next_file envFx itemsFx storeAllFx 0).store = storeAllFx ∧
    (process_next_file envFx itemsFx storeAllFx 0).finished
      = RunEnd.finished FinishMsg.completed := by
  have h := claim7_rerun_idempotent envFx itemsFx storeAllFx (by decide)
  exact ⟨h.2.1, h.2.2⟩


/-- Bound lemma for the thumbnail model: neither output dimension exceeds
the cap. -/
theorem thumbnailDims_le (w h : Nat) :
    (thumbnailDims w h 2048).1 ≤ 2048 ∧ (thumbnailDims w h 2048).2 ≤ 2048 := by
  unfold thumbnailDims
  by_cases h1 : w ≤ 2048 ∧ h ≤ 2048
  · simp only [if_pos h1]
    exact ⟨h1.1, h1.2⟩
  · simp only [if_neg h1]
    by_cases h2 : h ≤ w
    · simp only [if_pos h2]
      refine ⟨le_refl _, ?_⟩
      exact max_le (by omega) (Nat.div_le_of_le_mul (Nat.mul_le_mul_right 2048 h2))
    · simp only [if_neg h2]
      refine ⟨?_, le_refl _⟩
      exact max_le (by omega)
        (Nat.div_le_of_le_mul (Nat.mul_le_mul_right 2048 (by omega)))

/-- Claim C8 counterexample: a decodable grayscale (mode `L`) image is not
flattened to RGB — the encoder emits a grayscale JPEG, so the output is not
a plain-RGB JPEG for every decodable input. -/
theorem claim8_counterexample :
    ∃ enc, encode_image (.ok ⟨100, 80, .L⟩) = .ok enc ∧ enc.mode ≠ ImgMode.RGB := by
  refine ⟨_, rfl, ?_⟩
  decide

/-- Claim C8 (amended): a decode failure is wrapped as the preprocessing
error; for a decodable image the encoder emits a base64 JPEG at quality 85
within 2048 px on both dimensions, flattening palette and RGBA inputs (and
only those) to RGB, leaving images within the cap unresized and
LANCZOS-downsampling larger ones; a decodable mode JPEG cannot encode
(e.g. LA) also fails with the preprocessing error. -/
theorem claim8_encoder (img : PILImage) :
    (∀ e, encode_image (.error e) = .error ("文件预处理失败: " ++ e)) ∧
    (∀ enc, encode_image (.ok img) = .ok enc →
      enc.format = "JPEG" ∧ enc.quality = 85 ∧ enc.base64 = true ∧
      enc.width ≤ 2048 ∧ enc.height ≤ 2048 ∧
      ((img.mode = .RGBA ∨ img.mode = .P) → enc.mode = .RGB) ∧
      (¬ (img.mode = .RGBA ∨ img.mode = .P) → enc.mode = img.mode) ∧
      (max img.width img.height ≤ 2048 →
        enc.width = img.width ∧ enc.height = img.height ∧
        enc.resampledLanczos = false) ∧
      (2048 < max img.width img.height → enc.resampledLanczos = true)) ∧
    (img.mode = .LA → ∃ e, encode_image (.ok img) = .error e) := by
  refine ⟨fun e => rfl, ?_, ?_⟩
  · intro enc henc
    unfold encode_image at henc
    by_cases hconv : img.mode = ImgMode.RGBA ∨ img.mode = ImgMode.P
    · simp only [if_pos hconv] at henc
      by_cases hbig : max img.width img.height > 2048
      · simp only [hbig, jpegSaveable, if_pos, if_true] at henc
        injection henc with henc
        subst henc
        refine ⟨rfl, rfl, rfl, (thumbnailDims_le img.width img.height).1,
          (thumbnailDims_le img.width img.height).2, fun _ => rfl, fun hn => absurd hconv hn,
          fun hle => absurd hbig (by omega), fun _ => by simp [hbig]⟩
      · simp only [hbig, jpegSaveable, if_false, if_true] at henc
        injection henc with henc
        subst henc
        have hle : max img.width img.height ≤ 2048 := by omega
        exact ⟨rfl, rfl, rfl, (by omega : img.width ≤ 2048),
          (by omega : img.height ≤ 2048),
          fun _ => rfl, fun hn => absurd hconv hn,
          fun _ => ⟨rfl, rfl, by simp [hbig]⟩, fun hgt => absurd hgt (by omega)⟩
    · simp only [if_neg hconv] at henc
      by_cases hsave : jpegSaveable img.mode = true
      · by_cases hbig : max img.width img.height > 2048
        · simp only [hbig, hsave, if_pos, if_true] at henc
          injection henc with henc
          subst henc
          refine ⟨rfl, rfl, rfl, (thumbnailDims_le img.width img.height).1,
            (thumbnailDims_le img.width img.height).2, fun hc => absurd hc hconv,
            fun _ => rfl, fun hle => absurd hbig (by omega), fun _ => by simp [hbig]⟩
        · simp only [hbig, hsave, if_false, if_true] at henc
          injection henc with henc
          subst henc
          have hle : max img.width img.height ≤ 2048 := by omega
          exact ⟨rfl, rfl, rfl, (by omega : img.width ≤ 2048),
            (by omega : img.height ≤ 2048),
            fun hc => absurd hc hconv, fun _ => rfl,
            fun _ => ⟨rfl, rfl, by simp [hbig]⟩, fun hgt => absurd hgt (by omega)⟩
      · simp only [Bool.not_eq_true] at hsave
        simp only [hsave, Bool.false_eq_true, if_false] at henc
        exact Except.noConfusion henc
  · intro hla
    have hconv : ¬ (img.mode = ImgMode.RGBA ∨ img.mode = ImgMode.P) := by
      rw [hla]
      simp
    refine ⟨"文件预处理失败: cannot write mode " ++ modeName img.mode ++ " as JPEG", ?_⟩
    simp [encode_image, hla, jpegSaveable, modeName]

/-- Claim C8 witness: an oversized RGBA input is flattened to RGB and
LANCZOS-downsampled within the cap. -/
theorem claim8_witness :
    ∃ enc, encode_image (Except.ok ⟨5000, 3000, ImgMode.RGBA⟩) = Except.ok enc ∧
      enc.mode = ImgMode.RGB ∧ enc.width ≤ 2048 ∧ enc.height ≤ 2048 := by
  refine ⟨_, rfl, ?_⟩
  have h := (claim8_encoder ⟨5000, 3000, ImgMode.RGBA⟩).2.1 _ rfl
  exact ⟨h.2.2.2.2.2.1 (Or.inl rfl), h.2.2.2.1, h.2.2.2.2.1⟩


/-- Claim C2 counterexample: for a stored result whose scores dict lacks the
total, the exported Word section renders the total line as `总分：None/15`,
not `总分：0/15` — the export does not treat a missing total as zero. -/
theorem claim2_counterexample :
    ∃ sec, sectionFor "a.jpg" (JValue.obj [("scores", JValue.obj [])]) = some sec ∧
      Block.boldPara "总分：None/15" ∈ sec ∧ Block.boldPara "总分：0/15" ∉ sec := by
  refine ⟨_, rfl, ?_, ?_⟩ <;> decide

/-- Claim C2 (amended): a missing score field is never fatal; the on-screen
rendering shows 0 for a missing total and for each missing dimension
sub-score, and the Word export shows 0 for missing dimension sub-scores,
but renders a missing total as `None` (its total line reads `.get` without
a default). -/
theorem claim2_missing_scores (data : List (String × JValue)) (v : FeedbackView)
    (s : List (String × JValue))
    (hs : asDict (pyGetD data "scores" (.obj [])) = some s)
    (hdisp : display_result data = some v) :
    (lookupField s "total" = none → v.total = "0") ∧
    (lookupField s "dim1_score" = none → v.d1 = "0") ∧
    (lookupField s "dim2_score" = none → v.d2 = "0") ∧
    (lookupField s "dim3_score" = none → v.d3 = "0") ∧
    (∀ name sec, sectionFor name (.obj data) = some sec →
      (lookupField s "dim1_score" = none →
        Block.table
          [["维度", "内容要点", "语言表达", "结构衔接"],
           ["得分", "0", pyStr (pyGetD s "dim2_score" (.num 0)),
            pyStr (pyGetD s "dim3_score" (.num 0))]] ∈ sec) ∧
      (lookupField s "total" = none → Block.boldPara "总分：None/15" ∈ sec)) := by
  obtain ⟨s2, hs2, ht, h1, h2, h3⟩ := display_result_scores data v hdisp
  rw [hs] at hs2
  have hss : s2 = s := (Option.some.inj hs2).symm
  rw [hss] at ht h1 h2 h3
  refine ⟨fun hmiss => ?_, fun hmiss => ?_, fun hmiss => ?_, fun hmiss => ?_, ?_⟩
  · rw [ht]
    simp only [pyGetD, hmiss, Option.getD_none]
    rfl
  · rw [h1]
    simp only [pyGetD, hmiss, Option.getD_none]
    rfl
  · rw [h2]
    simp only [pyGetD, hmiss, Option.getD_none]
    rfl
  · rw [h3]
    simp only [pyGetD, hmiss, Option.getD_none]
    rfl
  · intro name sec hsec
    obtain ⟨d, scores, corr, recognized, stc, sm, w, sg, rev, hdd, hscd, hc1, hc2, hseceq⟩ :=
      sectionFor_shape name (.obj data) sec hsec
    have hdeq : data = d := Option.some.inj hdd
    rw [← hdeq] at hscd
    rw [hs] at hscd
    have hsceq : s = scores := Option.some.inj hscd
    rw [← hsceq] at hseceq
    constructor
    · intro hmiss
      have hz : pyStr (pyGetD s "dim1_score" (JValue.num 0)) = "0" := by
        simp only [pyGetD, hmiss, Option.getD_none]
        rfl
      rw [hseceq, hz]
      simp
    · intro hmiss
      have hz : pyStr (pyGetD s "total" JValue.null) = "None" := by
        simp [pyGetD, hmiss, pyStr]
      have happ : ("总分：" ++ "None" ++ "/15" : String) = "总分：None/15" := by decide
      rw [hseceq, hz, happ]
      simp

/-- Claim C2 witness: a reply whose scores dict is empty still renders, with
the on-screen total shown as 0. -/
theorem claim2_witness :
    ∃ v, display_result [("scores", JValue.obj [])] = some v ∧ v.total = "0" :=
  ⟨_, rfl, (claim2_missing_scores [("scores", JValue.obj [])] _ [] rfl rfl).1 rfl⟩

/-- Claim C9: the export builds exactly one fixed-shape section per Document
with a stored result, in Document-list order, skipping Documents without
one; each section has exactly one trailing section break and starts with the
file heading; a failing save surfaces one terminal error carrying the
underlying cause and aborts only the export action, while a successful save
returns the built document. -/
theorem claim9_export_contract (items : List ListItem) (store : Store)
    (p : String) (save : String → Except String Unit) (blocks : List Block)
    (hne : store.length ≠ 0)
    (hb : buildBlocks items store = some blocks) :
    (blocks = (items.filter (fun it => (storeGet store it.path).isSome)).flatMap
        (fun it => (sectionFor (stripMarks it.label)
          ((storeGet store it.path).getD .null)).getD [])) ∧
    (∀ name data sec, sectionFor name data = some sec →
      sec.countP isPageBreak = 1 ∧
      sec.head? = some (Block.heading 1 ("文件：" ++ name)) ∧
      sec.getLast? = some Block.pageBreak) ∧
    (∀ cause, save p = .error cause →
      export_to_word items store (some p) save = .saveFailed cause) ∧
    (save p = .ok () →
      export_to_word items store (some p) save = .saved p blocks) := by
  refine ⟨buildBlocks_eq store items blocks hb, ?_, ?_, ?_⟩
  · intro name data sec hsec
    obtain ⟨d, scores, corr, recognized, stc, sm, w, sg, rev, hdd, hscd, hc1, hc2, hseceq⟩ :=
      sectionFor_shape name data sec hsec
    subst hseceq
    refine ⟨?_, by simp, ?_⟩
    · rw [List.countP_append, List.countP_append, hc1]
      rfl
    · rw [List.append_assoc, List.getLast?_append, List.getLast?_append]
      rfl
  · intro cause hcause
    unfold export_to_word
    simp [hne, hb, hcause]
  · intro hok
    unfold export_to_word
    simp [hne, hb, hok]

/-- Claim C9 witness: exporting the fixture store to a locked destination
surfaces the save failure with its cause. -/
theorem claim9_witness :
    export_to_word itemsFx [("pa", JValue.obj [])] (some "out.docx")
      (fun _ => .error "locked") = .saveFailed "locked" := by
  have h := claim9_export_contract itemsFx [("pa", JValue.obj [])] "out.docx"
    (fun _ => .error "locked") _ (by decide) rfl
  exact h.2.2.1 "locked" rfl

/-- Claim C10: adding a file whose path is already in the pending list is a
no-op, a single add preserves pairwise-distinct paths, and any sequence of
adds starting from a duplicate-free list keeps the paths pairwise distinct
at all times. -/
theorem claim10_no_duplicate_paths (items : List ListItem) (n p : String) :
    (p ∈ items.map ListItem.path → add_item_to_list items n p = items) ∧
    ((items.map ListItem.path).Nodup →
      ((add_item_to_list items n p).map ListItem.path).Nodup) ∧
    (∀ adds : List (String × String), (items.map ListItem.path).Nodup →
      ((adds.foldl (fun acc a => add_item_to_list acc a.1 a.2) items).map
        ListItem.path).Nodup) := by
  refine ⟨fun hmem => by simp [add_item_to_list, hmem],
    add_nodup_preserved items n p, ?_⟩
  intro adds
  induction adds generalizing items with
  | nil => intro h; simpa using h
  | cons a rest ih =>
      intro h
      simp only [List.foldl_cons]
      exact ih (add_item_to_list items a.1 a.2) (add_nodup_preserved items a.1 a.2 h)

/-- Claim C10 witness: re-adding an existing path leaves the fixture list
unchanged and duplicate-free. -/
theorem claim10_witness :
    ((add_item_to_list itemsFx "a.jpg" "pa").map ListItem.path).Nodup :=
  (claim10_no_duplicate_paths itemsFx "a.jpg" "pa").2.1 (by decide)

end EssayGrader
